import Mathlib

/-! # PgQuartz `pkg/jobs/matrix_instances.go`

A shallow embedding of the matrix-argument expansion (`MatrixArgs.Instances`,
`MatrixArgValues.Explode`, `InstanceArguments.Clone`), of the environment renderer
(`InstanceArguments.AsEnv`), of the query-placeholder renderer
(`InstanceArguments.ParseQuery`) and of the binding formatter (`InstanceArguments.String`),
followed by the properties established for them.

Go maps are finite maps with string keys (`Finmap`); a `range` loop over a map is given the
order in which the keys are visited as an explicit argument, since Go leaves that order open.
-/

namespace PgQuartz.Jobs

/-- Constant `MatrixInstancePrefix`. -/
def MatrixInstancePrefix : String := "PGQ_INSTANCE"

/-- Go `map[string]T` : a finite map with string keys (no order, no duplicate keys). -/
abbrev GoMap (β : Type) := Finmap (fun _ : String => β)

/-- `type MatrixArgValues []string`: all the values one matrix argument can take. -/
abbrev MatrixArgValues := List String

/-- `type MatrixArgs map[string]MatrixArgValues`: argument name to value list. -/
abbrev MatrixArgs := GoMap MatrixArgValues

/-- `type InstanceArguments map[string]string`: one binding, argument name to value. -/
abbrev InstanceArguments := GoMap String

/-- `type Instances []InstanceArguments`. -/
abbrev Instances := List InstanceArguments

/-- A `range` loop over a Go map visits every key exactly once, in an unspecified order. -/
def IsRangeOrder {β : Type} (m : GoMap β) (order : List String) : Prop :=
  order.Nodup ∧ order.toFinset = m.keys

instance {β : Type} (m : GoMap β) (order : List String) : Decidable (IsRangeOrder m order) := by
  unfold IsRangeOrder; infer_instance

/-- The key/value pairs a `range` loop over `m` yields when the keys are visited in `order`. -/
def rangeOver {β : Type} (m : GoMap β) (order : List String) : List (String × β) :=
  order.filterMap (fun key => (m.lookup key).map (fun value => (key, value)))

/-- `func (ias InstanceArguments) Clone()`: starting from an empty map, every entry of `ias`
is written into the new map. The loop runs over the entries in whatever order the map
presents them; the proof term shows that the result does not depend on that order. -/
def InstanceArguments.Clone (ias : InstanceArguments) : InstanceArguments :=
  Finmap.liftOn ias
    (fun al => al.entries.foldl (fun newMia e => newMia.insert e.1 e.2) (∅ : InstanceArguments))
    (by
      have key : ∀ (l : List (Sigma fun _ : String => String)) (acc : InstanceArguments) (a : String),
          l.NodupKeys →
          (l.foldl (fun newMia e => Finmap.insert e.1 e.2 newMia) acc).lookup a
            = (l.dlookup a).orElse (fun _ => acc.lookup a) := by
        intro l
        induction l with
        | nil => intro acc a _; simp
        | cons e l ih =>
          intro acc a hnd
          rw [List.nodupKeys_cons] at hnd
          rw [List.foldl_cons, ih _ _ hnd.2]
          by_cases h : a = e.1
          · subst h
            have : List.dlookup e.1 l = none := List.dlookup_eq_none.mpr hnd.1
            have h3 : List.dlookup e.1 (e :: l) = some e.2 := by
              cases e; exact List.dlookup_cons_eq _ _ _
            simp [this, h3, Finmap.lookup_insert]
          · have h2 : List.dlookup a (e :: l) = List.dlookup a l := by
              cases e; exact List.dlookup_cons_ne _ _ h
            rw [h2, Finmap.lookup_insert_of_ne _ h]
      intro a b hab
      apply Finmap.ext_lookup
      intro x
      rw [key _ _ _ a.nodupKeys, key _ _ _ b.nodupKeys]
      rw [List.perm_dlookup x a.nodupKeys b.nodupKeys hab])

/-- `func (mavs MatrixArgValues) Explode(key string, collected Instances)`: the outer loop
runs over the values, the inner loop over the collected bindings; each binding is cloned,
`key` is set on the clone, and the clone is appended. -/
def MatrixArgValues.Explode (mavs : MatrixArgValues) (key : String)
    (collected : Instances) : List InstanceArguments :=
  mavs.foldl (fun exploded value =>
    collected.foldl (fun exploded mia =>
      exploded ++ [Finmap.insert key value (InstanceArguments.Clone mia)]) exploded) []

/-- Body of the loop of `MatrixArgs.Instances` for one visited entry `(arg, values)`: with
an empty accumulator one singleton binding `{arg: value}` is appended per value, otherwise
the accumulator is replaced by `values.Explode(arg, ias)`. -/
def MatrixArgs.Instances.body (ias : List InstanceArguments)
    (entry : String × MatrixArgValues) : List InstanceArguments :=
  if ias.length = 0 then
    entry.2.foldl (fun ias value => ias ++ [Finmap.singleton entry.1 value]) ias
  else
    MatrixArgValues.Explode entry.2 entry.1 ias

/-- `func (mas MatrixArgs) Instances()`: the loop over `range mas`, the argument names
being visited in `order`, started from the nil slice. -/
def MatrixArgs.Instances (mas : MatrixArgs) (order : List String) : List InstanceArguments :=
  (rangeOver mas order).foldl MatrixArgs.Instances.body []

/-- Go `strings.ToUpper`: every rune is mapped through `unicode.ToUpper`, which is the
parameter `up` (it is part of the Go standard library, not of this package). -/
def ToUpper (up : Char → Char) (s : String) : String := ⟨s.data.map up⟩

/-- `func (ias InstanceArguments) AsEnv()`; `fmt.Sprintf("%s_%s=%s", a, b, c)` is
`a ++ "_" ++ b ++ "=" ++ c`. -/
def InstanceArguments.AsEnv (up : Char → Char) (ias : InstanceArguments)
    (order : List String) : List String :=
  (rangeOver ias order).foldl (fun env entry =>
    env ++ [ MatrixInstancePrefix ++ "_" ++ ToUpper up entry.1 ++ "=" ++ entry.2]) []

/-- The value list a matrix-arguments mapping holds for `name` (empty when absent). -/
def valuesOf (mas : MatrixArgs) (name : String) : MatrixArgValues :=
  (mas.lookup name).getD []

/-- The fold in which every argument goes through `Explode`, started from the single empty
binding; `MatrixArgs.Instances` is compared with it below. -/
def explodeAll (entries : List (String × MatrixArgValues)) : List InstanceArguments :=
  entries.foldl (fun acc entry => MatrixArgValues.Explode entry.2 entry.1 acc) [∅]

/-- How often the value that `b` holds for the name of `entry` occurs in the value list of
`entry` (zero when `b` has no value for that name). -/
def pickCount (b : InstanceArguments) (entry : String × MatrixArgValues) : Nat :=
  match b.lookup entry.1 with
  | some v => entry.2.count v
  | none => 0

/-- The matrix arguments of the example in the source's doc comment:
`{"x": ["1", "2"], "y": ["3", "4"]}`. -/
def exampleArgs : MatrixArgs :=
  Finmap.insert "y" ["3", "4"] (Finmap.singleton "x" ["1", "2"])

/-- The binding `{"x": x, "y": y}`. -/
def xyBinding (x y : String) : InstanceArguments :=
  Finmap.insert "y" y (Finmap.singleton "x" x)

/-- The matrix arguments `{"a": [], "b": ["1"]}`: one argument without any value. -/
def emptyListArgs : MatrixArgs :=
  Finmap.insert "b" ["1"] (Finmap.singleton "a" [])

/-- Whether `sub` occurs in `s` as a contiguous run: it is a prefix of `s` or occurs in the
tail. Go strings are byte sequences; on valid UTF-8 an occurrence of bytes is an occurrence
of runes, so the search runs over the characters. -/
def containsChars (sub : List Char) : List Char → Bool
  | [] => sub.isEmpty
  | c :: cs => sub.isPrefixOf (c :: cs) || containsChars sub cs

/-- Go `strings.Contains(s, substr)`. -/
def Contains (s substr : String) : Bool := containsChars substr.data s.data

/-- The scan of Go `strings.Replace(s, old, new, -1)` for a non-empty `old`: the leftmost
occurrence is replaced and the scan goes on behind it, so the occurrences replaced do not
overlap. `skip` counts the characters of a matched occurrence still to be dropped. -/
def replaceChars (old new : List Char) : Nat → List Char → List Char
  | _, [] => []
  | skip + 1, _ :: cs => replaceChars old new skip cs
  | 0, c :: cs =>
    if old.isPrefixOf (c :: cs) then new ++ replaceChars old new (old.length - 1) cs
    else c :: replaceChars old new 0 cs

/-- Go `strings.ReplaceAll(s, old, new)` (which is `strings.Replace(s, old, new, -1)`); an
empty `old` matches before every rune and at the end. -/
def ReplaceAll (s old new : String) : String :=
  if old.data.isEmpty then ⟨new.data ++ s.data.flatMap (fun c => c :: new.data)⟩
  else ⟨replaceChars old.data new.data 0 s.data⟩

/-- Go `strings.Join(elems, sep)`. -/
def Join (elems : List String) (sep : String) : String := sep.intercalate elems

/-- Go `fmt.Sprint("$", i)` for an integer `i`: no blank is put after a string operand. -/
def sprintDollar (i : Nat) : String := "$" ++ Nat.repr i

/-- One step of the loop of `ParseQuery` on the state `(parsedQuery, args, i)`. -/
def InstanceArguments.ParseQuery.body (state : String × List String × Nat)
    (entry : String × String) : String × List String × Nat :=
  if Contains state.1 (":" ++ entry.1) then
    (ReplaceAll state.1 (":" ++ entry.1) (sprintDollar state.2.2),
      state.2.1 ++ [entry.2], state.2.2 + 1)
  else state

/-- `func (ias InstanceArguments) ParseQuery(query string)`: the loop over `range ias`, the
keys being visited in `order`, started with `parsedQuery = query`, no argument and
`i = 1`; the rewritten query and the argument list are returned. -/
def InstanceArguments.ParseQuery (ias : InstanceArguments) (order : List String)
    (query : String) : String × List String :=
  let final := (rangeOver ias order).foldl InstanceArguments.ParseQuery.body (query, [], 1)
  (final.1, final.2.1)

/-- `func (ias InstanceArguments) String()`; `fmt.Sprintf("'%s': %s", a, b)` is
`"'" ++ a ++ "': " ++ b`, and `strings.Replace(s, old, new, -1)` is `ReplaceAll`. -/
def InstanceArguments.String (ias : InstanceArguments) (order : List String) : String :=
  let keyValues := (rangeOver ias order).foldl (fun keyValues entry =>
    keyValues ++ ["'" ++ ReplaceAll entry.1 "'" "''" ++ "': " ++ ReplaceAll entry.2 "'" "''"])
    []
  "\x7b " ++ Join keyValues "," ++ " \x7d"

/-- The binding `{"x": "1", "y": "3"}` of the query example. -/
def queryBinding : InstanceArguments := xyBinding "1" "3"

/-- The binding `{"x": "1", "xy": "2"}`: one name is a textual start of the other. -/
def collidingBinding : InstanceArguments :=
  Finmap.insert "xy" "2" (Finmap.singleton "x" "1")

/-- The value a binding holds for `key` (the empty string when the key is absent). -/
def valueAt (b : InstanceArguments) (key : String) : String :=
  (b.lookup key).getD ""

/-- The escaping in the words of the specification: every single quote (character 39) is
replaced by two single quotes, every other character is kept. It is compared below with
the `strings.Replace` call of `String`. -/
def escapeQuotes (s : String) : String :=
  ⟨s.data.flatMap (fun c => if c = Char.ofNat 39 then [c, c] else [c])⟩

/-- The binding `{"k1": "v1", "k2": "v2"}` of the rendering example. -/
def renderBinding : InstanceArguments :=
  Finmap.insert "k2" "v2" (Finmap.singleton "k1" "v1")

/-- The binding `{"a": "1", "$1k": "2"}`: the second name starts with the text of a
positional placeholder. -/
def dollarBinding : InstanceArguments :=
  Finmap.insert "$1k" "2" (Finmap.singleton "a" "1")

/-! ### Map values as references

A Go map value is a reference to a map object, so two variables may name the same object.
For the statements about aliasing the map objects are kept in a store and a binding is
named by the position of its object. -/

/-- The map objects allocated so far; a reference is a position in this list. -/
abbrev Store := List InstanceArguments

/-- The map object a reference names (the empty map for a reference to nothing). -/
def Store.read (s : Store) (ref : Nat) : InstanceArguments := s.getD ref ∅

/-- Go `make(InstanceArguments)`: a new, empty map object; its reference is returned. -/
def Store.make (s : Store) : Nat × Store := (s.length, s ++ [∅])

/-- Go `m[key] = value` on the map object named by `ref`. -/
def Store.assign (s : Store) (ref : Nat) (key value : String) : Store :=
  s.set ref (Finmap.insert key value (Store.read s ref))

/-- `func (ias InstanceArguments) Clone()` on references: `newMia` is made, then the loop
over `range ias` reads each entry from the object of `ias` and assigns it to the object of
`newMia`. `visit` chooses the order in which the keys of a map are visited. -/
def CloneRef (visit : InstanceArguments → List String) (s : Store) (ias : Nat) : Nat × Store :=
  let made := Store.make s
  (made.1, (visit (Store.read s ias)).foldl (fun st key =>
    match (Store.read st ias).lookup key with
    | some value => Store.assign st made.1 key value
    | none => st) made.2)

/-- `func (mavs MatrixArgValues) Explode(key, collected)` on references: `mia = mia.Clone()`
rebinds the loop variable to the clone, `mia[key] = value` assigns on the clone, and the
reference of the clone is appended. -/
def ExplodeRef (visit : InstanceArguments → List String) (mavs : MatrixArgValues)
    (key : String) (collected : List Nat) (s : Store) : List Nat × Store :=
  mavs.foldl (fun acc value =>
    collected.foldl (fun acc mia =>
      let cloned := CloneRef visit acc.2 mia
      (acc.1 ++ [cloned.1], Store.assign cloned.2 cloned.1 key value)) acc) ([], s)

/-- One admissible choice of visiting order: the keys in increasing order. -/
def sortedKeys (m : InstanceArguments) : List String := m.keys.sort (fun a b => a ≤ b)

/-! ## Basic facts about the embedding -/

theorem foldl_snoc_map {α β : Type} (f : α → β) (l : List α) (acc : List β) :
    l.foldl (fun acc x => acc ++ [f x]) acc = acc ++ l.map f := by
  induction l generalizing acc with
  | nil => simp
  | cons x l ih => simp [ih]

theorem lookup_foldl_insert (l : List (Sigma fun _ : String => String))
    (acc : InstanceArguments) (a : String) (hnd : l.NodupKeys) :
    (l.foldl (fun newMia e => Finmap.insert e.1 e.2 newMia) acc).lookup a
      = (l.dlookup a).orElse (fun _ => acc.lookup a) := by
  induction l generalizing acc with
  | nil => simp
  | cons e l ih =>
    rw [List.nodupKeys_cons] at hnd
    rw [List.foldl_cons, ih _ hnd.2]
    by_cases h : a = e.1
    · subst h
      have h1 : List.dlookup e.1 l = none := List.dlookup_eq_none.mpr hnd.1
      have h3 : List.dlookup e.1 (e :: l) = some e.2 := by
        cases e; exact List.dlookup_cons_eq _ _ _
      simp [h1, h3, Finmap.lookup_insert]
    · have h2 : List.dlookup a (e :: l) = List.dlookup a l := by
        cases e; exact List.dlookup_cons_ne _ _ h
      rw [h2, Finmap.lookup_insert_of_ne _ h]

/-- Cloning returns the same finite map. -/
theorem Clone_eq (ias : InstanceArguments) : InstanceArguments.Clone ias = ias := by
  induction ias using Finmap.induction_on with
  | H al =>
    unfold InstanceArguments.Clone
    rw [Finmap.liftOn_toFinmap]
    apply Finmap.ext_lookup
    intro x
    rw [lookup_foldl_insert _ _ _ al.nodupKeys, Finmap.lookup_toFinmap]
    simp [AList.lookup]

/-- The two nested loops of `Explode`, as a map over the values of a map over the bindings. -/
theorem Explode_eq (mavs : MatrixArgValues) (key : String) (collected : Instances) :
    MatrixArgValues.Explode mavs key collected
      = mavs.flatMap (fun value => collected.map (fun mia => Finmap.insert key value mia)) := by
  have gen : ∀ (vs : List String) (acc : List InstanceArguments),
      vs.foldl (fun exploded value =>
        collected.foldl (fun exploded mia =>
          exploded ++ [Finmap.insert key value (InstanceArguments.Clone mia)]) exploded) acc
        = acc ++ vs.flatMap
            (fun value => collected.map (fun mia => Finmap.insert key value mia)) := by
    intro vs
    induction vs with
    | nil => intro acc; simp
    | cons v vs ih =>
      intro acc
      rw [List.foldl_cons, ih, foldl_snoc_map, List.flatMap_cons, List.append_assoc]
      simp [Clone_eq]
  simpa using gen mavs []

theorem Explode_nil_values (key : String) (collected : Instances) :
    MatrixArgValues.Explode [] key collected = [] := by
  simp [Explode_eq]

theorem Explode_cons_values (v : String) (vs : MatrixArgValues) (key : String)
    (collected : Instances) :
    MatrixArgValues.Explode (v :: vs) key collected
      = collected.map (fun mia => Finmap.insert key v mia)
          ++ MatrixArgValues.Explode vs key collected := by
  simp [Explode_eq]

theorem Explode_length (mavs : MatrixArgValues) (key : String) (collected : Instances) :
    (MatrixArgValues.Explode mavs key collected).length = mavs.length * collected.length := by
  induction mavs with
  | nil => simp [Explode_nil_values]
  | cons v vs ih =>
    rw [Explode_cons_values, List.length_append, ih, List.length_map, List.length_cons]
    ring

theorem mem_Explode {mavs : MatrixArgValues} {key : String} {collected : Instances}
    {b : InstanceArguments} :
    b ∈ MatrixArgValues.Explode mavs key collected
      ↔ ∃ v ∈ mavs, ∃ mia ∈ collected, b = Finmap.insert key v mia := by
  rw [Explode_eq]
  simp only [List.mem_flatMap, List.mem_map]
  constructor
  · rintro ⟨v, hv, mia, hm, rfl⟩; exact ⟨v, hv, mia, hm, rfl⟩
  · rintro ⟨v, hv, mia, hm, rfl⟩; exact ⟨v, hv, mia, hm, rfl⟩

/-! ## `Explode`: position of every produced binding -/

theorem Explode_getElem? (vals : MatrixArgValues) (key : String) (coll : Instances)
    (j i : Nat) (hj : j < vals.length) (hi : i < coll.length) :
    (MatrixArgValues.Explode vals key coll)[j * coll.length + i]?
      = some (Finmap.insert key vals[j] coll[i]) := by
  induction vals generalizing j with
  | nil => simp at hj
  | cons v vs ih =>
    rw [Explode_cons_values]
    cases j with
    | zero =>
      rw [List.getElem?_append_left (by simpa using hi)]
      simp [List.getElem?_eq_getElem hi]
    | succ j =>
      have hj2 : j < vs.length := by simpa using hj
      have hidx : (j + 1) * coll.length + i = coll.length + (j * coll.length + i) := by ring
      rw [hidx, List.getElem?_append_right (by simp)]
      simp only [List.length_map, Nat.add_sub_cancel_left]
      rw [ih j hj2]
      simp

/-- C8: `Explode` returns `len(vals) * len(coll)` bindings, and the one at index
`j * len(coll) + i` is `coll[i]` with `key` set to `vals[j]`, any earlier value of `key`
being overridden and every other key kept: the value index moves slower than the index of
the existing binding, whose relative order is kept within each value. -/
theorem Explode_layout (vals : MatrixArgValues) (key : String) (coll : Instances) :
    (MatrixArgValues.Explode vals key coll).length = vals.length * coll.length ∧
    ∀ (j i : Nat) (hj : j < vals.length) (hi : i < coll.length),
      (MatrixArgValues.Explode vals key coll)[j * coll.length + i]?
          = some (Finmap.insert key vals[j] coll[i]) ∧
        (Finmap.insert key vals[j] coll[i]).lookup key = some vals[j] ∧
        ∀ other : String, other ≠ key →
          (Finmap.insert key vals[j] coll[i]).lookup other = coll[i].lookup other := by
  refine ⟨Explode_length vals key coll, ?_⟩
  intro j i hj hi
  refine ⟨Explode_getElem? vals key coll j i hj hi, Finmap.lookup_insert _, ?_⟩
  intro other hne
  exact Finmap.lookup_insert_of_ne _ hne

theorem Explode_layout_witness :
    (MatrixArgValues.Explode ["3", "4"] "y"
        [Finmap.singleton "x" "1", Finmap.singleton "x" "2"])[1 * 2 + 0]?
      = some (Finmap.insert "y" "4" (Finmap.singleton "x" "1")) :=
  ((Explode_layout ["3", "4"] "y"
      [Finmap.singleton "x" "1", Finmap.singleton "x" "2"]).2 1 0
        (by decide) (by decide)).1

/-! ## The loop of `Instances` and the all-`Explode` fold -/

theorem explodeAll_snoc (es : List (String × MatrixArgValues)) (e : String × MatrixArgValues) :
    explodeAll (es ++ [e]) = MatrixArgValues.Explode e.2 e.1 (explodeAll es) := by
  simp [explodeAll, List.foldl_append]

theorem singleton_eq_insert_empty (k v : String) :
    (Finmap.singleton k v : InstanceArguments) = Finmap.insert k v ∅ := by
  apply Finmap.ext_lookup
  intro x
  by_cases h : x = k
  · subst h; rw [Finmap.lookup_singleton_eq, Finmap.lookup_insert]
  · rw [Finmap.lookup_insert_of_ne _ h, Finmap.lookup_empty, Finmap.lookup_eq_none,
      Finmap.mem_singleton]
    exact h

/-- On an empty accumulator the loop body seeds one singleton binding per value, which is
what `Explode` makes of the single empty binding. -/
theorem body_nil (e : String × MatrixArgValues) :
    MatrixArgs.Instances.body [] e = MatrixArgValues.Explode e.2 e.1 [∅] := by
  simp only [MatrixArgs.Instances.body, List.length_nil, if_true, foldl_snoc_map,
    List.nil_append, Explode_eq, singleton_eq_insert_empty, List.map_cons, List.map_nil]
  induction e.2 with
  | nil => rfl
  | cons v vs ih => simp [ih]

theorem body_of_ne_nil {ias : List InstanceArguments} (h : ias ≠ [])
    (e : String × MatrixArgValues) :
    MatrixArgs.Instances.body ias e = MatrixArgValues.Explode e.2 e.1 ias := by
  have : ias.length ≠ 0 := by simpa using h
  simp [MatrixArgs.Instances.body, this]

theorem Explode_ne_nil {vals : MatrixArgValues} {coll : Instances} (key : String)
    (hv : vals ≠ []) (hc : coll ≠ []) : MatrixArgValues.Explode vals key coll ≠ [] := by
  intro h
  have hl := Explode_length vals key coll
  rw [h] at hl
  have h1 : 0 < vals.length := List.length_pos.mpr hv
  have h2 : 0 < coll.length := List.length_pos.mpr hc
  have h3 := Nat.mul_pos h1 h2
  rw [← hl] at h3
  simp at h3

theorem foldl_body_of_ne_nil (es : List (String × MatrixArgValues))
    (hne : ∀ e ∈ es, e.2 ≠ []) (acc : List InstanceArguments) (hacc : acc ≠ []) :
    es.foldl MatrixArgs.Instances.body acc
      = es.foldl (fun acc entry => MatrixArgValues.Explode entry.2 entry.1 acc) acc := by
  induction es generalizing acc with
  | nil => rfl
  | cons e es ih =>
    rw [List.foldl_cons, List.foldl_cons, body_of_ne_nil hacc]
    exact ih (fun x hx => hne x (List.mem_cons_of_mem _ hx)) _
      (Explode_ne_nil e.1 (hne e (List.mem_cons_self _ _)) hacc)

/-- With at least one argument and no empty value list, the loop of `Instances` computes the
all-`Explode` fold. -/
theorem foldl_body_eq_explodeAll (es : List (String × MatrixArgValues))
    (hes : es ≠ []) (hne : ∀ e ∈ es, e.2 ≠ []) :
    es.foldl MatrixArgs.Instances.body [] = explodeAll es := by
  cases es with
  | nil => exact absurd rfl hes
  | cons e es =>
    rw [List.foldl_cons, body_nil, explodeAll, List.foldl_cons]
    exact foldl_body_of_ne_nil es (fun x hx => hne x (List.mem_cons_of_mem _ hx)) _
      (Explode_ne_nil e.1 (hne e (List.mem_cons_self _ _)) (by simp))

theorem rangeOver_eq {mas : MatrixArgs} {order : List String}
    (h : ∀ k ∈ order, k ∈ mas) :
    rangeOver mas order = order.map (fun k => (k, valuesOf mas k)) := by
  induction order with
  | nil => rfl
  | cons k ks ih =>
    obtain ⟨vs, hvs⟩ := Finmap.mem_iff.mp (h k (List.mem_cons_self _ _))
    have ih2 := ih (fun x hx => h x (List.mem_cons_of_mem _ hx))
    unfold rangeOver at ih2 ⊢
    rw [List.filterMap_cons, hvs]
    simp only [Option.map_some', List.map_cons, valuesOf, hvs, Option.getD_some]
    rw [ih2]
    simp [valuesOf]

theorem IsRangeOrder.mem {β : Type} {m : GoMap β} {order : List String}
    (h : IsRangeOrder m order) {k : String} : k ∈ order ↔ k ∈ m := by
  rw [← Finmap.mem_keys, ← h.2, List.mem_toFinset]

theorem rangeOver_of_order {mas : MatrixArgs} {order : List String}
    (h : IsRangeOrder mas order) :
    rangeOver mas order = order.map (fun k => (k, valuesOf mas k)) :=
  rangeOver_eq (fun _ hk => h.mem.mp hk)

/-- `Instances` on a non-empty mapping without empty value lists is the all-`Explode` fold
over the arguments in visiting order. -/
theorem Instances_eq_explodeAll {mas : MatrixArgs} {order : List String}
    (hord : IsRangeOrder mas order) (hk : mas.keys.Nonempty)
    (hne : ∀ k ∈ mas.keys, valuesOf mas k ≠ []) :
    MatrixArgs.Instances mas order = explodeAll (order.map (fun k => (k, valuesOf mas k))) := by
  unfold MatrixArgs.Instances
  rw [rangeOver_of_order hord]
  apply foldl_body_eq_explodeAll
  · obtain ⟨k, hk⟩ := hk
    have : k ∈ order := hord.mem.mpr (Finmap.mem_keys.mp hk)
    intro h
    rw [List.map_eq_nil_iff] at h
    rw [h] at this
    simp at this
  · intro e he
    rw [List.mem_map] at he
    obtain ⟨k, hk, rfl⟩ := he
    exact hne k (Finmap.mem_keys.mpr (hord.mem.mp hk))

/-! ## Size and shape of the all-`Explode` fold -/

theorem explodeAll_length (es : List (String × MatrixArgValues)) :
    (explodeAll es).length = (es.map (fun e => e.2.length)).prod := by
  induction es using List.reverseRecOn with
  | nil => simp [explodeAll]
  | append_singleton es e ih =>
    rw [explodeAll_snoc, Explode_length, ih]
    simp [Nat.mul_comm]

theorem keys_insert (k v : String) (m : InstanceArguments) :
    (Finmap.insert k v m).keys = insert k m.keys := by
  ext x
  rw [Finmap.mem_keys, Finmap.mem_insert, Finset.mem_insert, Finmap.mem_keys]

theorem explodeAll_keys (es : List (String × MatrixArgValues)) :
    ∀ b ∈ explodeAll es, b.keys = (es.map Prod.fst).toFinset := by
  induction es using List.reverseRecOn with
  | nil =>
    intro b hb
    have : b = ∅ := by simpa [explodeAll] using hb
    subst this
    simp
  | append_singleton es e ih =>
    intro b hb
    rw [explodeAll_snoc, mem_Explode] at hb
    obtain ⟨v, _, mia, hm, rfl⟩ := hb
    rw [keys_insert, ih mia hm]
    ext x
    simp only [Finset.mem_insert, List.mem_toFinset, List.map_append, List.map_cons,
      List.map_nil, List.mem_append, List.mem_singleton]
    tauto

theorem explodeAll_values (es : List (String × MatrixArgValues)) :
    ∀ b ∈ explodeAll es, ∀ k v, b.lookup k = some v → ∃ vs, (k, vs) ∈ es ∧ v ∈ vs := by
  induction es using List.reverseRecOn with
  | nil =>
    intro b hb k v hkv
    have : b = ∅ := by simpa [explodeAll] using hb
    subst this
    simp at hkv
  | append_singleton es e ih =>
    intro b hb k v hkv
    rw [explodeAll_snoc, mem_Explode] at hb
    obtain ⟨w, hw, mia, hm, rfl⟩ := hb
    by_cases h : k = e.1
    · subst h
      rw [Finmap.lookup_insert] at hkv
      cases hkv
      exact ⟨e.2, by simp, hw⟩
    · rw [Finmap.lookup_insert_of_ne _ h] at hkv
      obtain ⟨vs, hvs, hv⟩ := ih mia hm k v hkv
      exact ⟨vs, by simp [hvs], hv⟩

theorem prod_keys_eq {mas : MatrixArgs} {order : List String} (hord : IsRangeOrder mas order)
    (f : String → Nat) : ∏ k ∈ mas.keys, f k = (order.map f).prod := by
  rw [← hord.2, List.prod_toFinset f hord.1]

/-! ## C1, C2: size and completeness of the instance set -/

/-- C1: for a matrix-arguments mapping with at least one argument name whose value lists are
all non-empty, and for every order in which the names are folded, `Instances` returns
exactly as many bindings as the product of the lengths of the value lists. -/
theorem Instances_length (mas : MatrixArgs) (order : List String)
    (hord : IsRangeOrder mas order) (hk : 1 ≤ mas.keys.card)
    (hne : ∀ k ∈ mas.keys, 0 < (valuesOf mas k).length) :
    (MatrixArgs.Instances mas order).length = ∏ k ∈ mas.keys, (valuesOf mas k).length := by
  rw [Instances_eq_explodeAll hord (Finset.card_pos.mp hk)
    (fun k hk => List.length_pos.mp (hne k hk)), explodeAll_length, prod_keys_eq hord]
  simp [Function.comp_def]

theorem Instances_length_witness :
    IsRangeOrder exampleArgs ["x", "y"] ∧
    (MatrixArgs.Instances exampleArgs ["x", "y"]).length
      = ∏ k ∈ exampleArgs.keys, (valuesOf exampleArgs k).length :=
  ⟨by decide, Instances_length exampleArgs ["x", "y"] (by decide) (by decide) (by decide)⟩

/-- C2: for a matrix-arguments mapping whose value lists are all non-empty, and for every
fold order, every binding returned by `Instances` is complete: its keys are exactly the
argument names of the mapping, and for each name it holds an element of that name's value
list. -/
theorem Instances_complete (mas : MatrixArgs) (order : List String)
    (hord : IsRangeOrder mas order)
    (hne : ∀ k ∈ mas.keys, 0 < (valuesOf mas k).length) :
    ∀ b ∈ MatrixArgs.Instances mas order,
      b.keys = mas.keys ∧ ∀ k ∈ mas.keys, ∃ v, b.lookup k = some v ∧ v ∈ valuesOf mas k := by
  intro b hb
  by_cases hk : mas.keys.Nonempty
  · rw [Instances_eq_explodeAll hord hk (fun k hk => List.length_pos.mp (hne k hk))] at hb
    have hkeys : b.keys = mas.keys := by
      rw [explodeAll_keys _ b hb, ← hord.2]
      simp [Function.comp_def]
    refine ⟨hkeys, ?_⟩
    intro k hkm
    rw [← hkeys, Finmap.mem_keys, Finmap.mem_iff] at hkm
    obtain ⟨v, hv⟩ := hkm
    obtain ⟨vs, hvs, hvin⟩ := explodeAll_values _ b hb k v hv
    rw [List.mem_map] at hvs
    obtain ⟨k2, _, heq⟩ := hvs
    cases heq
    exact ⟨v, hv, hvin⟩
  · rw [Finset.not_nonempty_iff_eq_empty] at hk
    have ho : order = [] := by
      have := hord.2
      rw [hk] at this
      simpa using this
    subst ho
    simp [MatrixArgs.Instances, rangeOver] at hb

theorem Instances_complete_witness :
    xyBinding "2" "3" ∈ MatrixArgs.Instances exampleArgs ["x", "y"] ∧
    ((xyBinding "2" "3").keys = exampleArgs.keys ∧
      ∀ k ∈ exampleArgs.keys,
        ∃ v, (xyBinding "2" "3").lookup k = some v ∧ v ∈ valuesOf exampleArgs k) :=
  ⟨by decide,
    Instances_complete exampleArgs ["x", "y"] (by decide) (by decide) _ (by decide)⟩

/-! ## Multiplicity of a binding in the all-`Explode` fold -/

theorem insert_eq_iff {k v : String} {m b : InstanceArguments} (hk : k ∉ m) :
    Finmap.insert k v m = b ↔ b.lookup k = some v ∧ m = b.erase k := by
  constructor
  · rintro rfl
    refine ⟨Finmap.lookup_insert _, ?_⟩
    apply Finmap.ext_lookup
    intro x
    by_cases h : x = k
    · subst h
      rw [Finmap.lookup_erase, Finmap.lookup_eq_none]
      exact hk
    · rw [Finmap.lookup_erase_ne h, Finmap.lookup_insert_of_ne _ h]
  · rintro ⟨hl, rfl⟩
    apply Finmap.ext_lookup
    intro x
    by_cases h : x = k
    · subst h
      rw [Finmap.lookup_insert, hl]
    · rw [Finmap.lookup_insert_of_ne _ h, Finmap.lookup_erase_ne h]

theorem count_map_insert (k v : String) (coll : List InstanceArguments)
    (b : InstanceArguments) (hk : ∀ m ∈ coll, k ∉ m) :
    (coll.map (fun m => Finmap.insert k v m)).count b
      = if b.lookup k = some v then coll.count (b.erase k) else 0 := by
  induction coll with
  | nil => simp
  | cons m coll ih =>
    have hm : k ∉ m := hk m (List.mem_cons_self _ _)
    have ih2 := ih (fun x hx => hk x (List.mem_cons_of_mem _ hx))
    rw [List.map_cons, List.count_cons, ih2, List.count_cons]
    by_cases hl : b.lookup k = some v
    · by_cases he : m = b.erase k
      · have hins : Finmap.insert k v m = b := (insert_eq_iff hm).mpr ⟨hl, he⟩
        subst he
        simp [hl, hins]
      · have : ¬ Finmap.insert k v m = b := fun h => he ((insert_eq_iff hm).mp h).2
        simp [hl, he, this]
    · have : ¬ Finmap.insert k v m = b := fun h => hl ((insert_eq_iff hm).mp h).1
      simp [hl, this]

theorem count_Explode (vs : MatrixArgValues) (k : String) (coll : List InstanceArguments)
    (b : InstanceArguments) (hk : ∀ m ∈ coll, k ∉ m) :
    (MatrixArgValues.Explode vs k coll).count b
      = pickCount b (k, vs) * coll.count (b.erase k) := by
  induction vs with
  | nil =>
    rw [Explode_nil_values]
    unfold pickCount
    cases b.lookup k <;> simp
  | cons v vs ih =>
    rw [Explode_cons_values, List.count_append, ih, count_map_insert k v coll b hk]
    unfold pickCount
    cases hb : b.lookup k with
    | none => simp
    | some w =>
      simp only [List.count_cons]
      by_cases hwv : w = v
      · subst hwv; simp; ring
      · have hvw : ¬ v = w := fun h => hwv h.symm
        simp [hwv, hvw]

theorem pickCount_erase {b : InstanceArguments} {k : String} {e : String × MatrixArgValues}
    (h : e.1 ≠ k) : pickCount (b.erase k) e = pickCount b e := by
  unfold pickCount
  rw [Finmap.lookup_erase_ne h]

/-- How often a binding occurs in the all-`Explode` fold over arguments with distinct
names. -/
theorem count_explodeAll (es : List (String × MatrixArgValues))
    (hnd : (es.map Prod.fst).Nodup) (b : InstanceArguments) :
    (explodeAll es).count b
      = if b.keys ⊆ (es.map Prod.fst).toFinset then (es.map (pickCount b)).prod else 0 := by
  induction es using List.reverseRecOn generalizing b with
  | nil =>
    simp only [explodeAll, List.foldl_nil, List.map_nil, List.toFinset_nil, List.prod_nil,
      Finset.subset_empty]
    by_cases hb : b = ∅
    · subst hb; simp
    · have h1 : ¬ b.keys = ∅ := by
        intro hk
        apply hb
        apply Finmap.ext_lookup
        intro x
        rw [Finmap.lookup_empty, Finmap.lookup_eq_none, ← Finmap.mem_keys, hk]
        simp
      have h2 : ¬ (∅ : InstanceArguments) = b := fun h => hb h.symm
      simp [h1, List.count_cons, h2]
  | append_singleton es e ih =>
    rw [List.map_append, List.nodup_append] at hnd
    obtain ⟨hnd1, _, hdis⟩ := hnd
    have hfresh : e.1 ∉ es.map Prod.fst := by
      intro h
      exact hdis h (by simp)
    have hk : ∀ m ∈ explodeAll es, e.1 ∉ m := by
      intro m hm hmem
      rw [← Finmap.mem_keys, explodeAll_keys es m hm, List.mem_toFinset] at hmem
      exact hfresh hmem
    rw [explodeAll_snoc, count_Explode e.2 e.1 _ b hk, ih hnd1 (b.erase e.1)]
    have hsub : (b.erase e.1).keys ⊆ (es.map Prod.fst).toFinset
        ↔ b.keys ⊆ ((es ++ [e]).map Prod.fst).toFinset := by
      rw [Finmap.keys_erase, ← Finset.subset_insert_iff]
      have : ((es ++ [e]).map Prod.fst).toFinset = insert e.1 (es.map Prod.fst).toFinset := by
        ext x
        simp only [List.map_append, List.map_cons, List.map_nil, List.mem_toFinset,
          List.mem_append, List.mem_singleton, Finset.mem_insert]
        tauto
      rw [this]
    have hmap : es.map (pickCount (b.erase e.1)) = es.map (pickCount b) := by
      apply List.map_congr_left
      intro x hx
      apply pickCount_erase
      intro h
      exact hfresh (h ▸ List.mem_map_of_mem Prod.fst hx)
    by_cases hs : b.keys ⊆ ((es ++ [e]).map Prod.fst).toFinset
    · rw [if_pos (hsub.mpr hs), if_pos hs, hmap]
      simp [Nat.mul_comm]
    · rw [if_neg (fun h => hs (hsub.mp h)), if_neg hs]
      simp

/-! ## C3: one binding per combination -/

/-- C3, amended: for a matrix-arguments mapping with at least one argument name, every fold
order, and every assignment that picks for each argument name one value of that name's
list, the number of bindings of the result equal to the assignment is the product, over the
argument names, of the number of times the picked value occurs in that name's list; it is
exactly one when no list repeats a value. -/
theorem Instances_count (mas : MatrixArgs) (order : List String) (a : InstanceArguments)
    (hord : IsRangeOrder mas order) (hk : 1 ≤ mas.keys.card)
    (hkeys : a.keys = mas.keys)
    (hpick : ∀ k ∈ mas.keys, ∃ v ∈ valuesOf mas k, a.lookup k = some v) :
    (MatrixArgs.Instances mas order).count a
        = ∏ k ∈ mas.keys, pickCount a (k, valuesOf mas k) ∧
      ((∀ k ∈ mas.keys, (valuesOf mas k).Nodup) →
        (MatrixArgs.Instances mas order).count a = 1) := by
  have hne : ∀ k ∈ mas.keys, valuesOf mas k ≠ [] := by
    intro k hkm
    obtain ⟨v, hv, _⟩ := hpick k hkm
    exact List.ne_nil_of_mem hv
  have hfst : (order.map (fun k => (k, valuesOf mas k))).map Prod.fst = order := by
    simp [Function.comp_def]
  have hcount : (MatrixArgs.Instances mas order).count a
      = ∏ k ∈ mas.keys, pickCount a (k, valuesOf mas k) := by
    rw [Instances_eq_explodeAll hord (Finset.card_pos.mp hk) hne,
      count_explodeAll _ (by rw [hfst]; exact hord.1), hfst, hord.2, if_pos (by rw [hkeys]),
      prod_keys_eq hord]
    simp [Function.comp_def]
  refine ⟨hcount, ?_⟩
  intro hnodup
  rw [hcount]
  apply Finset.prod_eq_one
  intro k hkm
  obtain ⟨v, hv, hl⟩ := hpick k hkm
  simp only [pickCount, hl]
  exact List.count_eq_one_of_mem (hnodup k hkm) hv

theorem Instances_count_witness :
    IsRangeOrder exampleArgs ["x", "y"] ∧
    (MatrixArgs.Instances exampleArgs ["x", "y"]).count (xyBinding "1" "4") = 1 :=
  ⟨by decide,
    (Instances_count exampleArgs ["x", "y"] (xyBinding "1" "4")
      (by decide) (by decide) (by decide) (by decide)).2 (by decide)⟩

/-- C3 as stated fails on the mapping without argument names: the empty assignment picks a
value for each of its (zero) names, the product over no names is one, yet the result holds
no binding at all. -/
theorem Instances_count_empty_mapping :
    IsRangeOrder (∅ : MatrixArgs) [] ∧
    (∅ : InstanceArguments).keys = (∅ : MatrixArgs).keys ∧
    (∀ k ∈ (∅ : MatrixArgs).keys,
      ∃ v ∈ valuesOf ∅ k, (∅ : InstanceArguments).lookup k = some v) ∧
    (MatrixArgs.Instances ∅ []).count (∅ : InstanceArguments) = 0 ∧
    ∏ k ∈ (∅ : MatrixArgs).keys, pickCount (∅ : InstanceArguments) (k, valuesOf ∅ k) = 1 := by
  refine ⟨by decide, rfl, by simp, by decide, by simp⟩

/-! ## C4, C5: an empty value list folded before a non-empty one -/

/-- C4 at the failing input: for `{"a": [], "b": ["1"]}` folded `a` then `b`, the empty list
of `a` leaves the accumulator empty, so `b` takes the seed branch again and `Instances`
returns the one binding `{"b": "1"}` instead of no instance; folded `b` then `a` the same
mapping does give no instance. -/
theorem Instances_empty_list_reseeds :
    IsRangeOrder emptyListArgs ["a", "b"] ∧ valuesOf emptyListArgs "a" = [] ∧
    MatrixArgs.Instances emptyListArgs ["a", "b"] = [Finmap.singleton "b" "1"] ∧
    MatrixArgs.Instances emptyListArgs ["b", "a"] = [] := by
  decide

/-- C5 at the failing input: the two fold orders of `{"a": [], "b": ["1"]}` give results of
different size, which are no permutation of each other. -/
theorem Instances_fold_order_not_perm :
    IsRangeOrder emptyListArgs ["a", "b"] ∧ IsRangeOrder emptyListArgs ["b", "a"] ∧
    (MatrixArgs.Instances emptyListArgs ["a", "b"]).length = 1 ∧
    (MatrixArgs.Instances emptyListArgs ["b", "a"]).length = 0 ∧
    ¬ List.Perm (MatrixArgs.Instances emptyListArgs ["a", "b"])
        (MatrixArgs.Instances emptyListArgs ["b", "a"]) := by
  refine ⟨by decide, by decide, by decide, by decide, ?_⟩
  intro h
  have := h.length_eq
  revert this
  decide

/-- Without empty value lists the fold order changes the order of the result only: the
results of any two fold orders are permutations of each other. -/
theorem Instances_perm_of_nonempty (mas : MatrixArgs) (order₁ order₂ : List String)
    (h₁ : IsRangeOrder mas order₁) (h₂ : IsRangeOrder mas order₂)
    (hne : ∀ k ∈ mas.keys, 0 < (valuesOf mas k).length) :
    List.Perm (MatrixArgs.Instances mas order₁) (MatrixArgs.Instances mas order₂) := by
  by_cases hk : mas.keys.Nonempty
  · have hne2 : ∀ k ∈ mas.keys, valuesOf mas k ≠ [] :=
      fun k hk => List.length_pos.mp (hne k hk)
    have hfst : ∀ order : List String,
        (order.map (fun k => (k, valuesOf mas k))).map Prod.fst = order := by
      intro order; simp [Function.comp_def]
    have hcnt : ∀ (order : List String), IsRangeOrder mas order → ∀ b : InstanceArguments,
        (MatrixArgs.Instances mas order).count b
          = if b.keys ⊆ mas.keys then ∏ k ∈ mas.keys, pickCount b (k, valuesOf mas k)
            else 0 := by
      intro order hord b
      rw [Instances_eq_explodeAll hord hk hne2,
        count_explodeAll _ (by rw [hfst]; exact hord.1), hfst, hord.2, prod_keys_eq hord]
      simp [Function.comp_def]
    rw [List.perm_iff_count]
    intro b
    rw [hcnt order₁ h₁ b, hcnt order₂ h₂ b]
  · rw [Finset.not_nonempty_iff_eq_empty] at hk
    have ho : ∀ order : List String, IsRangeOrder mas order → order = [] := by
      intro order hord
      have := hord.2
      rw [hk] at this
      simpa using this
    rw [ho _ h₁, ho _ h₂]

/-! ## C7: the mapping without argument names -/

/-- C7, amended: for the empty matrix-arguments mapping `Instances` returns the empty
instance set (size zero): the loop body never runs and the accumulator is never seeded. -/
theorem Instances_empty (order : List String) :
    MatrixArgs.Instances ∅ order = [] ∧ (MatrixArgs.Instances ∅ order).length = 0 := by
  have h : rangeOver (∅ : MatrixArgs) order = [] := by
    induction order with
    | nil => rfl
    | cons k ks ih =>
      unfold rangeOver at ih ⊢
      rw [List.filterMap_cons, Finmap.lookup_empty]
      exact ih
  simp [MatrixArgs.Instances, h]

/-- C7 as stated fails: on the empty mapping the result is not the single empty binding and
its size is not one. -/
theorem Instances_empty_not_single :
    IsRangeOrder (∅ : MatrixArgs) [] ∧
    MatrixArgs.Instances ∅ [] ≠ [(∅ : InstanceArguments)] ∧
    (MatrixArgs.Instances ∅ []).length ≠ 1 := by
  decide

/-! ## C6: how often a value of one argument is bound -/

theorem countP_Explode_same (vs : MatrixArgValues) (k : String)
    (coll : List InstanceArguments) (v : String) :
    (MatrixArgValues.Explode vs k coll).countP (fun b => decide (b.lookup k = some v))
      = vs.count v * coll.length := by
  induction vs with
  | nil => simp [Explode_nil_values]
  | cons w vs ih =>
    rw [Explode_cons_values, List.countP_append, ih, List.countP_map, List.count_cons]
    by_cases hwv : w = v
    · subst hwv
      have : (coll.countP ((fun b => decide (Finmap.lookup k b = some w)) ∘
          fun mia => Finmap.insert k w mia)) = coll.length := by
        rw [List.countP_eq_length]
        intro m _
        simp [Finmap.lookup_insert]
      rw [this]
      simp
      ring
    · have : (coll.countP ((fun b => decide (Finmap.lookup k b = some v)) ∘
          fun mia => Finmap.insert k w mia)) = 0 := by
        rw [List.countP_eq_zero]
        intro m _
        simp [Finmap.lookup_insert, hwv]
      rw [this]
      simp [hwv]

theorem countP_Explode_other (vs : MatrixArgValues) (k : String)
    (coll : List InstanceArguments) (a v : String) (hak : a ≠ k) :
    (MatrixArgValues.Explode vs k coll).countP (fun b => decide (b.lookup a = some v))
      = vs.length * coll.countP (fun b => decide (b.lookup a = some v)) := by
  induction vs with
  | nil => simp [Explode_nil_values]
  | cons w vs ih =>
    rw [Explode_cons_values, List.countP_append, ih, List.countP_map, List.length_cons]
    have : ((fun b => decide (Finmap.lookup a b = some v)) ∘
        fun mia => Finmap.insert k w mia)
          = fun b : InstanceArguments => decide (b.lookup a = some v) := by
      funext m
      simp [Finmap.lookup_insert_of_ne _ hak]
    rw [this]
    ring

/-- In the all-`Explode` fold, the bindings that give the argument `a` the value `v` are
`count v L` out of every `length L`, where `L` is the value list of `a`. -/
theorem countP_explodeAll (es : List (String × MatrixArgValues))
    (hnd : (es.map Prod.fst).Nodup) (a : String) (L : MatrixArgValues) (v : String)
    (hmem : (a, L) ∈ es) :
    ∃ q, (explodeAll es).length = L.length * q ∧
      (explodeAll es).countP (fun b => decide (b.lookup a = some v)) = L.count v * q := by
  induction es using List.reverseRecOn with
  | nil => simp at hmem
  | append_singleton es e ih =>
    rw [List.map_append, List.nodup_append] at hnd
    obtain ⟨hnd1, _, hdis⟩ := hnd
    rw [explodeAll_snoc, Explode_length]
    rw [List.mem_append, List.mem_singleton] at hmem
    rcases hmem with hin | heq
    · have hak : a ≠ e.1 := by
        intro h
        exact hdis (List.mem_map_of_mem Prod.fst hin) (by simp [h])
      obtain ⟨q, hq1, hq2⟩ := ih hnd1 hin
      refine ⟨e.2.length * q, ?_, ?_⟩
      · rw [hq1]; ring
      · rw [countP_Explode_other _ _ _ _ _ hak, hq2]; ring
    · subst heq
      exact ⟨(explodeAll es).length, rfl, countP_Explode_same _ _ _ _⟩

/-- C6: for a matrix-arguments mapping whose value lists are all non-empty, every fold
order, every argument name `a` and every value `v`, the number of returned bindings that
bind `a` to `v` is the number of occurrences of `v` in the list of `a` times
`n_total / n_a`, with `n_total` the size of the result and `n_a` the length of the list of
`a`; a value that occurs once in the list is bound `n_total / n_a` times. -/
theorem Instances_value_share (mas : MatrixArgs) (order : List String)
    (hord : IsRangeOrder mas order)
    (hne : ∀ k ∈ mas.keys, 0 < (valuesOf mas k).length)
    (a : String) (ha : a ∈ mas.keys) (v : String) :
    (MatrixArgs.Instances mas order).countP (fun b => decide (b.lookup a = some v))
        = (valuesOf mas a).count v
          * ((MatrixArgs.Instances mas order).length / (valuesOf mas a).length) ∧
      ((valuesOf mas a).count v = 1 →
        (MatrixArgs.Instances mas order).countP (fun b => decide (b.lookup a = some v))
          = (MatrixArgs.Instances mas order).length / (valuesOf mas a).length) := by
  have hmain : (MatrixArgs.Instances mas order).countP
      (fun b => decide (b.lookup a = some v))
        = (valuesOf mas a).count v
          * ((MatrixArgs.Instances mas order).length / (valuesOf mas a).length) := by
    rw [Instances_eq_explodeAll hord ⟨a, ha⟩ (fun k hk => List.length_pos.mp (hne k hk))]
    have hfst : (order.map (fun k => (k, valuesOf mas k))).map Prod.fst = order := by
      simp [Function.comp_def]
    have hin : (a, valuesOf mas a) ∈ order.map (fun k => (k, valuesOf mas k)) :=
      List.mem_map_of_mem _ (hord.mem.mpr (Finmap.mem_keys.mp ha))
    obtain ⟨q, hq1, hq2⟩ := countP_explodeAll _ (by rw [hfst]; exact hord.1) a
      (valuesOf mas a) v hin
    rw [hq1, hq2, Nat.mul_div_cancel_left _ (hne a ha)]
  refine ⟨hmain, ?_⟩
  intro h1
  rw [hmain, h1, Nat.one_mul]

theorem Instances_value_share_witness :
    (MatrixArgs.Instances exampleArgs ["x", "y"]).countP
        (fun b => decide (b.lookup "x" = some "2"))
      = (valuesOf exampleArgs "x").count "2"
        * ((MatrixArgs.Instances exampleArgs ["x", "y"]).length
            / (valuesOf exampleArgs "x").length) :=
  (Instances_value_share exampleArgs ["x", "y"] (by decide) (by decide) "x" (by decide)
    "2").1

/-! ## C9: the example of the doc comment -/

/-- C9 at the failing input: for `{"x": ["1", "2"], "y": ["3", "4"]}` the doc comment of the
source gives the result `{x:1,y:3}`, `{x:1,y:4}`, `{x:2,y:3}`, `{x:2,y:4}`. With `x` folded
before `y` the code returns `{x:1,y:3}`, `{x:2,y:3}`, `{x:1,y:4}`, `{x:2,y:4}` instead, since
`Explode` runs the values of the new argument in its outer loop; only with `y` folded before
`x` does it return the order of the doc comment. Both results hold the same four
bindings. -/
theorem Instances_example :
    IsRangeOrder exampleArgs ["y", "x"] ∧ IsRangeOrder exampleArgs ["x", "y"] ∧
    MatrixArgs.Instances exampleArgs ["y", "x"]
      = [xyBinding "1" "3", xyBinding "1" "4", xyBinding "2" "3", xyBinding "2" "4"] ∧
    MatrixArgs.Instances exampleArgs ["x", "y"]
      = [xyBinding "1" "3", xyBinding "2" "3", xyBinding "1" "4", xyBinding "2" "4"] ∧
    List.Perm (MatrixArgs.Instances exampleArgs ["x", "y"])
      [xyBinding "1" "3", xyBinding "1" "4", xyBinding "2" "3", xyBinding "2" "4"] := by
  decide

/-- Folding `x` before `y` does not give the four bindings in the order of the doc
comment. -/
theorem Instances_example_order_x_first :
    IsRangeOrder exampleArgs ["x", "y"] ∧
    MatrixArgs.Instances exampleArgs ["x", "y"]
      ≠ [xyBinding "1" "3", xyBinding "1" "4", xyBinding "2" "3", xyBinding "2" "4"] := by
  decide

/-! ## C10: the environment renderer -/

theorem rangeOver_getElem? {β : Type} (m : GoMap β) (order : List String)
    (h : ∀ k ∈ order, k ∈ m) (i : Nat) (hi : i < order.length) :
    ∃ v, m.lookup order[i] = some v ∧ (rangeOver m order)[i]? = some (order[i], v) := by
  induction order generalizing i with
  | nil => simp at hi
  | cons k ks ih =>
    obtain ⟨w, hw⟩ := Finmap.mem_iff.mp (h k (List.mem_cons_self _ _))
    have hcons : rangeOver m (k :: ks) = (k, w) :: rangeOver m ks := by
      unfold rangeOver
      rw [List.filterMap_cons, hw]
      rfl
    cases i with
    | zero => exact ⟨w, hw, by rw [hcons]; simp⟩
    | succ i =>
      have hi2 : i < ks.length := by simpa using hi
      obtain ⟨v, hv1, hv2⟩ := ih (fun x hx => h x (List.mem_cons_of_mem _ hx)) i hi2
      refine ⟨v, by simpa using hv1, ?_⟩
      rw [hcons]
      simpa using hv2

theorem rangeOver_length {β : Type} (m : GoMap β) (order : List String)
    (h : ∀ k ∈ order, k ∈ m) : (rangeOver m order).length = order.length := by
  induction order with
  | nil => rfl
  | cons k ks ih =>
    obtain ⟨w, hw⟩ := Finmap.mem_iff.mp (h k (List.mem_cons_self _ _))
    have hcons : rangeOver m (k :: ks) = (k, w) :: rangeOver m ks := by
      unfold rangeOver
      rw [List.filterMap_cons, hw]
      rfl
    rw [hcons, List.length_cons, List.length_cons,
      ih (fun x hx => h x (List.mem_cons_of_mem _ hx))]

theorem AsEnv_eq_map (up : Char → Char) (ias : InstanceArguments) (order : List String) :
    InstanceArguments.AsEnv up ias order
      = (rangeOver ias order).map (fun entry =>
          "PGQ_INSTANCE_" ++ ToUpper up entry.1 ++ "=" ++ entry.2) := by
  unfold InstanceArguments.AsEnv
  rw [foldl_snoc_map, List.nil_append]
  apply List.map_congr_left
  intro entry _
  have : MatrixInstancePrefix ++ "_" = "PGQ_INSTANCE_" := by decide
  rw [this]

/-- C10: for every binding and every order in which its keys are visited, `AsEnv` returns
exactly one string per key, and the string at the position of key `k` with value `v` is
`"PGQ_INSTANCE_" ++ uppercase(k) ++ "=" ++ v`, the value being passed through verbatim, in
key-visiting order; on `{"x": "1"}` the result is `["PGQ_INSTANCE_X=1"]` (upper-casing
sends `x` to `X`). -/
theorem AsEnv_spec (up : Char → Char) (b : InstanceArguments) (order : List String)
    (hord : IsRangeOrder b order) :
    (InstanceArguments.AsEnv up b order).length = b.keys.card ∧
    (InstanceArguments.AsEnv up b order).length = order.length ∧
    (∀ (i : Nat) (hi : i < order.length),
      ∃ v, b.lookup order[i] = some v ∧
        (InstanceArguments.AsEnv up b order)[i]?
          = some ("PGQ_INSTANCE_" ++ ToUpper up order[i] ++ "=" ++ v)) ∧
    (up 'x' = 'X' →
      InstanceArguments.AsEnv up (Finmap.singleton "x" "1") ["x"] = ["PGQ_INSTANCE_X=1"]) := by
  have hmem : ∀ k ∈ order, k ∈ b := fun _ hk => hord.mem.mp hk
  have hlen : (InstanceArguments.AsEnv up b order).length = order.length := by
    rw [AsEnv_eq_map, List.length_map, rangeOver_length b order hmem]
  refine ⟨?_, hlen, ?_, ?_⟩
  · rw [hlen, ← hord.2, List.toFinset_card_of_nodup hord.1]
  · intro i hi
    obtain ⟨v, hv1, hv2⟩ := rangeOver_getElem? b order hmem i hi
    refine ⟨v, hv1, ?_⟩
    rw [AsEnv_eq_map, List.getElem?_map, hv2]
    rfl
  · intro hx
    have hr : rangeOver (Finmap.singleton "x" "1" : InstanceArguments) ["x"] = [("x", "1")] := by
      decide
    have hu : ToUpper up "x" = "X" := by
      show String.mk (List.map up ['x']) = "X"
      rw [List.map_cons, hx]
      rfl
    rw [AsEnv_eq_map, hr, List.map_cons, List.map_nil, hu]
    decide

theorem AsEnv_spec_witness :
    IsRangeOrder (Finmap.singleton "x" "1" : InstanceArguments) ["x"] ∧
    InstanceArguments.AsEnv Char.toUpper (Finmap.singleton "x" "1") ["x"]
      = ["PGQ_INSTANCE_X=1"] :=
  ⟨by decide,
    (AsEnv_spec Char.toUpper (Finmap.singleton "x" "1") ["x"] (by decide)).2.2.2
      (by decide)⟩

/-! ## C11, C13: `ParseQuery` on the two examples -/

/-- C11: on the binding `{"x": "1", "y": "3"}` and the template `select f(:x, :y)`, the keys
being visited in the order `x`, `y`, `ParseQuery` returns the query `select f($1, $2)` and
the argument list `["1", "3"]`. -/
theorem ParseQuery_example :
    IsRangeOrder queryBinding ["x", "y"] ∧
    InstanceArguments.ParseQuery queryBinding ["x", "y"] "select f(:x, :y)"
      = ("select f($1, $2)", ["1", "3"]) := by
  decide

/-- C13: on the binding `{"x": "1", "xy": "2"}` and the template `select :x, :xy`, with `x`
visited before `xy`, the placeholder `:xy` is rewritten by the shorter name: the query
returned is `select $1, $1y` and the argument list is `["1"]`, which leaves out the value
bound to `xy` although `:xy` occurs in the template. -/
theorem ParseQuery_name_collision :
    IsRangeOrder collidingBinding ["x", "xy"] ∧
    Contains "select :x, :xy" ":xy" = true ∧
    collidingBinding.lookup "xy" = some "2" ∧
    InstanceArguments.ParseQuery collidingBinding ["x", "xy"] "select :x, :xy"
      = ("select $1, $1y", ["1"]) ∧
    "2" ∉ (InstanceArguments.ParseQuery collidingBinding ["x", "xy"] "select :x, :xy").2 := by
  decide

/-! ## C14: `Clone` -/

/-- C14: `Clone` returns a binding with exactly the key/value pairs of the source: the same
key set and, for every key, the same value. -/
theorem Clone_same_pairs (b : InstanceArguments) :
    (InstanceArguments.Clone b).keys = b.keys ∧
    ∀ k : String, (InstanceArguments.Clone b).lookup k = b.lookup k := by
  rw [Clone_eq]
  exact ⟨rfl, fun _ => rfl⟩

/-! ## C17, C18: the loop of `ParseQuery` -/

theorem mem_rangeOver {β : Type} {m : GoMap β} {order : List String} {e : String × β}
    (h : e ∈ rangeOver m order) : e.1 ∈ order ∧ m.lookup e.1 = some e.2 := by
  unfold rangeOver at h
  rw [List.mem_filterMap] at h
  obtain ⟨k, hk, hv⟩ := h
  cases hl : m.lookup k with
  | none => rw [hl] at hv; simp at hv
  | some v =>
    rw [hl] at hv
    simp only [Option.map_some', Option.some.injEq] at hv
    subst hv
    exact ⟨hk, hl⟩

theorem rangeOver_length_le {β : Type} (m : GoMap β) (order : List String) :
    (rangeOver m order).length ≤ order.length := by
  unfold rangeOver
  exact List.length_filterMap_le _ _

theorem ParseQuery_foldl_unchanged (q : String) (es : List (String × String))
    (args : List String) (i : Nat)
    (h : ∀ e ∈ es, Contains q (":" ++ e.1) = false) :
    es.foldl InstanceArguments.ParseQuery.body (q, args, i) = (q, args, i) := by
  induction es with
  | nil => rfl
  | cons e es ih =>
    have he : Contains q (":" ++ e.1) = false := h e (List.mem_cons_self _ _)
    rw [List.foldl_cons]
    have hb : InstanceArguments.ParseQuery.body (q, args, i) e = (q, args, i) := by
      simp [InstanceArguments.ParseQuery.body, he]
    rw [hb]
    exact ih (fun x hx => h x (List.mem_cons_of_mem _ hx))

theorem ParseQuery_foldl_args_length (es : List (String × String))
    (st : String × List String × Nat) :
    (es.foldl InstanceArguments.ParseQuery.body st).2.1.length ≤ st.2.1.length + es.length := by
  induction es generalizing st with
  | nil => simp
  | cons e es ih =>
    rw [List.foldl_cons]
    refine le_trans (ih _) ?_
    have : (InstanceArguments.ParseQuery.body st e).2.1.length ≤ st.2.1.length + 1 := by
      unfold InstanceArguments.ParseQuery.body
      split <;> simp
    rw [List.length_cons]
    omega

theorem rangeOver_snoc {β : Type} (m : GoMap β) (pre : List String) (name : String)
    (value : β) (h : m.lookup name = some value) :
    rangeOver m (pre ++ [name]) = rangeOver m pre ++ [(name, value)] := by
  simp [rangeOver, h]

/-- C17: the positional counter advances once per argument name, not per occurrence. For a
single-key binding `{k: v}` and a template `q` that contains `":" ++ k`, `ParseQuery`
returns `q` with all occurrences of `":" ++ k` replaced by `$1`, and the argument list
`[v]`. For every binding, visiting order and template the argument list returned has no
more entries than the binding has keys, and the counter ends at one more than the number
of arguments returned. A name found after the keys `pre` were visited is replaced by `$n`
with `n` one more than the number of arguments appended for `pre`, however often the
names before it occur, and its value is appended. -/
theorem ParseQuery_single_key (k v q : String) (hq : Contains q (":" ++ k) = true)
    (b : InstanceArguments) (order : List String) (template : String)
    (hord : IsRangeOrder b order)
    (pre : List String) (name value : String) (hname : b.lookup name = some value)
    (hfound : Contains (InstanceArguments.ParseQuery b pre template).1 (":" ++ name) = true) :
    InstanceArguments.ParseQuery (Finmap.singleton k v) [k] q
        = (ReplaceAll q (":" ++ k) "$1", [v]) ∧
      (InstanceArguments.ParseQuery b order template).2.length ≤ b.keys.card ∧
      ((rangeOver b order).foldl InstanceArguments.ParseQuery.body (template, [], 1)).2.2
        = (InstanceArguments.ParseQuery b order template).2.length + 1 ∧
      InstanceArguments.ParseQuery b (pre ++ [name]) template
        = (ReplaceAll (InstanceArguments.ParseQuery b pre template).1 (":" ++ name)
            (sprintDollar ((InstanceArguments.ParseQuery b pre template).2.length + 1)),
          (InstanceArguments.ParseQuery b pre template).2 ++ [value]) := by
  have hcounter : ∀ (es : List (String × String)) (st : String × List String × Nat),
      st.2.2 = st.2.1.length + 1 →
      (es.foldl InstanceArguments.ParseQuery.body st).2.2
        = (es.foldl InstanceArguments.ParseQuery.body st).2.1.length + 1 := by
    intro es
    induction es with
    | nil => intro st h; exact h
    | cons e es ih =>
      intro st h
      rw [List.foldl_cons]
      apply ih
      unfold InstanceArguments.ParseQuery.body
      split
      · simp [h]
      · exact h
  refine ⟨?_, ?_, ?_, ?_⟩
  · have hr : rangeOver (Finmap.singleton k v : InstanceArguments) [k] = [(k, v)] := by
      simp [rangeOver, Finmap.lookup_singleton_eq]
    have hd : sprintDollar 1 = "$1" := by decide
    simp [InstanceArguments.ParseQuery, hr, InstanceArguments.ParseQuery.body, hq, hd]
  · have h1 := ParseQuery_foldl_args_length (rangeOver b order) (template, [], 1)
    have h2 := rangeOver_length_le b order
    have h3 : order.length = b.keys.card := by
      rw [← hord.2, List.toFinset_card_of_nodup hord.1]
    simp only [InstanceArguments.ParseQuery, List.length_nil, Nat.zero_add] at h1 ⊢
    omega
  · exact hcounter (rangeOver b order) (template, [], 1) rfl
  · have hcnt := hcounter (rangeOver b pre) (template, [], 1) rfl
    simp only [InstanceArguments.ParseQuery] at hfound ⊢
    rw [rangeOver_snoc b pre name value hname, List.foldl_append, List.foldl_cons,
      List.foldl_nil]
    simp only [InstanceArguments.ParseQuery.body, hfound, if_true, hcnt]

theorem ParseQuery_single_key_witness :
    InstanceArguments.ParseQuery (Finmap.singleton "x" "1") ["x"] "select :x, :x"
        = ("select $1, $1", ["1"]) ∧
      InstanceArguments.ParseQuery queryBinding (["x"] ++ ["y"]) "select f(:x, :x, :y)"
        = ("select f($1, $1, $2)", ["1", "3"]) ∧
      ((rangeOver queryBinding ["x", "y"]).foldl InstanceArguments.ParseQuery.body
          ("select f(:x, :x, :y)", [], 1)).2.2 = 3 :=
  have h := ParseQuery_single_key "x" "1" "select :x, :x" (by decide)
    queryBinding ["x", "y"] "select f(:x, :x, :y)" (by decide)
    ["x"] "y" "3" (by decide) (by decide)
  ⟨h.1, h.2.2.2.trans (by decide), by decide⟩

/-- C18: when for no key `k` of the binding the string `":" ++ k` occurs in the template,
`ParseQuery` returns the template unchanged and an empty argument list, in every
key-visiting order; placeholders of the template without a binding key stay as they are. -/
theorem ParseQuery_no_placeholder (b : InstanceArguments) (order : List String) (q : String)
    (h : ∀ k ∈ b.keys, Contains q (":" ++ k) = false) :
    InstanceArguments.ParseQuery b order q = (q, []) := by
  have hfold := ParseQuery_foldl_unchanged q (rangeOver b order) [] 1 (by
    intro e he
    have hm := (mem_rangeOver he).2
    exact h e.1 (Finmap.mem_keys.mpr (Finmap.mem_of_lookup_eq_some hm)))
  simp [InstanceArguments.ParseQuery, hfold]

theorem ParseQuery_no_placeholder_witness :
    InstanceArguments.ParseQuery queryBinding ["x", "y"] "select f(:a, :b)"
      = ("select f(:a, :b)", []) :=
  ParseQuery_no_placeholder queryBinding ["x", "y"] "select f(:a, :b)" (by decide)

/-! ## C16: the binding formatter -/

theorem replaceChars_quote (l : List Char) :
    replaceChars [Char.ofNat 39] [Char.ofNat 39, Char.ofNat 39] 0 l
      = l.flatMap (fun c => if c = Char.ofNat 39 then [c, c] else [c]) := by
  induction l with
  | nil => rfl
  | cons c cs ih =>
    by_cases hc : c = Char.ofNat 39
    · subst hc
      simp [replaceChars, List.isPrefixOf, ih]
    · have hne : ¬ Char.ofNat 39 = c := fun h => hc h.symm
      simp [replaceChars, List.isPrefixOf, ih, hc, hne]

/-- The `strings.Replace(s, "'", "''", -1)` of the source doubles every single quote. -/
theorem ReplaceAll_quote (s : String) : ReplaceAll s "'" "''" = escapeQuotes s := by
  have h1 : ("'" : String).data = [Char.ofNat 39] := by decide
  have h2 : ("''" : String).data = [Char.ofNat 39, Char.ofNat 39] := by decide
  unfold ReplaceAll escapeQuotes
  rw [h1, h2, replaceChars_quote]
  rfl

theorem rangeOver_eq_valueAt {b : InstanceArguments} {order : List String}
    (h : ∀ k ∈ order, k ∈ b) :
    rangeOver b order = order.map (fun k => (k, valueAt b k)) := by
  induction order with
  | nil => rfl
  | cons k ks ih =>
    obtain ⟨v, hv⟩ := Finmap.mem_iff.mp (h k (List.mem_cons_self _ _))
    have ih2 := ih (fun x hx => h x (List.mem_cons_of_mem _ hx))
    unfold rangeOver at ih2 ⊢
    rw [List.filterMap_cons, hv]
    simp only [Option.map_some', List.map_cons, valueAt, hv, Option.getD_some]
    rw [ih2]
    simp [valueAt]

/-- C16: for a binding whose keys are visited in the order `k1 .. kn` with values
`v1 .. vn`, `String` returns `"{ "`, then the items `'esc(ki)': esc(vi)` joined by `","`,
then `" }"`, where `esc` doubles every single quote; `{k1: v1, k2: v2}` renders as
`{ 'k1': v1,'k2': v2 }`. -/
theorem String_spec (b : InstanceArguments) (order : List String)
    (hord : IsRangeOrder b order) :
    InstanceArguments.String b order
        = "\x7b " ++ Join (order.map (fun k =>
            "'" ++ escapeQuotes k ++ "': " ++ escapeQuotes (valueAt b k))) "," ++ " \x7d" ∧
      (∀ k ∈ order, b.lookup k = some (valueAt b k)) ∧
      InstanceArguments.String renderBinding ["k1", "k2"] = "\x7b 'k1': v1,'k2': v2 \x7d" := by
  have hmem : ∀ k ∈ order, k ∈ b := fun _ hk => hord.mem.mp hk
  refine ⟨?_, ?_, by decide⟩
  · unfold InstanceArguments.String
    simp only [foldl_snoc_map, List.nil_append, rangeOver_eq_valueAt hmem, List.map_map,
      ReplaceAll_quote]
    rfl
  · intro k hk
    obtain ⟨v, hv⟩ := Finmap.mem_iff.mp (hmem k hk)
    simp [valueAt, hv]

theorem String_spec_witness :
    InstanceArguments.String (Finmap.singleton "it's" "o'clock") ["it's"]
      = "\x7b 'it''s': o''clock \x7d" :=
  (String_spec (Finmap.singleton "it's" "o'clock") ["it's"] (by decide)).1.trans (by decide)

/-! ## C19, C20: `Instances` on mappings that may hold empty value lists -/

/-- The loop body is `Explode` on the accumulator, or on the single empty binding when the
accumulator is empty. -/
theorem body_eq_Explode (acc : List InstanceArguments) (e : String × MatrixArgValues) :
    MatrixArgs.Instances.body acc e
      = MatrixArgValues.Explode e.2 e.1 (if acc = [] then [∅] else acc) := by
  by_cases h : acc = []
  · subst h; rw [body_nil]; simp
  · rw [body_of_ne_nil h, if_neg h]

theorem body_eq_nil_iff (acc : List InstanceArguments) (e : String × MatrixArgValues) :
    MatrixArgs.Instances.body acc e = [] ↔ e.2 = [] := by
  rw [body_eq_Explode]
  have hc : (if acc = [] then [(∅ : InstanceArguments)] else acc) ≠ [] := by
    by_cases h : acc = []
    · simp [h]
    · simp [h]
  constructor
  · intro h
    by_contra hv
    exact Explode_ne_nil e.1 hv hc h
  · intro h
    rw [h, Explode_nil_values]

theorem foldl_body_snoc (es : List (String × MatrixArgValues)) (e : String × MatrixArgValues) :
    (es ++ [e]).foldl MatrixArgs.Instances.body []
      = MatrixArgs.Instances.body (es.foldl MatrixArgs.Instances.body []) e := by
  simp [List.foldl_append]

theorem foldl_body_eq_nil_iff (es : List (String × MatrixArgValues)) :
    es.foldl MatrixArgs.Instances.body [] = []
      ↔ es = [] ∨ ∃ e, es.getLast? = some e ∧ e.2 = [] := by
  induction es using List.reverseRecOn with
  | nil => simp
  | append_singleton es e _ =>
    rw [foldl_body_snoc, body_eq_nil_iff]
    simp

/-- C19: for every matrix-arguments mapping and every fold order, `Instances` returns an
empty instance set if and only if the mapping has no argument names or the value list of
the argument folded last is empty: the seed branch is taken whenever the accumulator is
empty, so empty lists folded earlier do not empty the result. -/
theorem Instances_eq_nil_iff (mas : MatrixArgs) (order : List String)
    (hord : IsRangeOrder mas order) :
    MatrixArgs.Instances mas order = []
      ↔ mas.keys = ∅ ∨ ∃ last, order.getLast? = some last ∧ valuesOf mas last = [] := by
  unfold MatrixArgs.Instances
  rw [rangeOver_of_order hord, foldl_body_eq_nil_iff]
  have hk : mas.keys = ∅ ↔ order = [] := by
    rw [← hord.2]
    exact List.toFinset_eq_empty_iff order
  rw [hk, List.map_eq_nil_iff]
  apply or_congr Iff.rfl
  constructor
  · rintro ⟨e, he, hv⟩
    rw [List.getLast?_map] at he
    cases hl : order.getLast? with
    | none => rw [hl] at he; simp at he
    | some last =>
      rw [hl] at he
      simp only [Option.map_some', Option.some.injEq] at he
      subst he
      exact ⟨last, rfl, hv⟩
  · rintro ⟨last, hl, hv⟩
    exact ⟨(last, valuesOf mas last), by rw [List.getLast?_map, hl]; rfl, hv⟩

theorem Instances_eq_nil_iff_witness :
    MatrixArgs.Instances emptyListArgs ["b", "a"] = [] :=
  (Instances_eq_nil_iff emptyListArgs ["b", "a"] (by decide)).mpr
    (Or.inr ⟨"a", by decide, by decide⟩)

theorem foldl_body_shape (es : List (String × MatrixArgValues)) :
    ∃ S : Finset String, S ⊆ (es.map Prod.fst).toFinset ∧
      ∀ b ∈ es.foldl MatrixArgs.Instances.body [],
        b.keys = S ∧ ∀ k v, b.lookup k = some v → ∃ vs, (k, vs) ∈ es ∧ v ∈ vs := by
  induction es using List.reverseRecOn with
  | nil => exact ⟨∅, by simp, by simp⟩
  | append_singleton es e ih =>
    obtain ⟨S, hS, hall⟩ := ih
    have hsub : insert e.1 (es.map Prod.fst).toFinset ⊆ ((es ++ [e]).map Prod.fst).toFinset := by
      intro x hx
      simp only [Finset.mem_insert, List.mem_toFinset] at hx
      simp only [List.map_append, List.map_cons, List.map_nil, List.mem_toFinset,
        List.mem_append, List.mem_singleton]
      tauto
    rw [foldl_body_snoc, body_eq_Explode]
    by_cases hacc : es.foldl MatrixArgs.Instances.body [] = []
    · rw [if_pos hacc]
      refine ⟨{e.1}, ?_, ?_⟩
      · intro x hx
        rw [Finset.mem_singleton] at hx
        exact hsub (by simp [hx])
      · intro b hb
        rw [mem_Explode] at hb
        obtain ⟨w, hw, mia, hm, rfl⟩ := hb
        have : mia = ∅ := by simpa using hm
        subst this
        refine ⟨by rw [keys_insert]; simp, ?_⟩
        intro k v hkv
        by_cases h : k = e.1
        · subst h
          rw [Finmap.lookup_insert] at hkv
          cases hkv
          exact ⟨e.2, by simp, hw⟩
        · rw [Finmap.lookup_insert_of_ne _ h, Finmap.lookup_empty] at hkv
          cases hkv
    · rw [if_neg hacc]
      refine ⟨insert e.1 S, ?_, ?_⟩
      · exact (Finset.insert_subset_insert _ hS).trans hsub
      · intro b hb
        rw [mem_Explode] at hb
        obtain ⟨w, hw, mia, hm, rfl⟩ := hb
        obtain ⟨hk, hv⟩ := hall mia hm
        refine ⟨by rw [keys_insert, hk], ?_⟩
        intro k v hkv
        by_cases h : k = e.1
        · subst h
          rw [Finmap.lookup_insert] at hkv
          cases hkv
          exact ⟨e.2, by simp, hw⟩
        · rw [Finmap.lookup_insert_of_ne _ h] at hkv
          obtain ⟨vs, hvs, hin⟩ := hv k v hkv
          exact ⟨vs, by simp [hvs], hin⟩

/-- C20: for every matrix-arguments mapping, empty value lists included, and every fold
order, all bindings returned by `Instances` have the same key set, that key set is a
subset of the argument names of the mapping, and every binding maps each of its keys to an
element of that name's value list. -/
theorem Instances_uniform_keys (mas : MatrixArgs) (order : List String)
    (hord : IsRangeOrder mas order) :
    ∃ S : Finset String, S ⊆ mas.keys ∧
      ∀ b ∈ MatrixArgs.Instances mas order,
        b.keys = S ∧ ∀ k v, b.lookup k = some v → v ∈ valuesOf mas k := by
  obtain ⟨S, hS, hall⟩ := foldl_body_shape (order.map (fun k => (k, valuesOf mas k)))
  refine ⟨S, ?_, ?_⟩
  · rw [← hord.2]
    simpa [Function.comp_def] using hS
  · intro b hb
    unfold MatrixArgs.Instances at hb
    rw [rangeOver_of_order hord] at hb
    obtain ⟨hk, hv⟩ := hall b hb
    refine ⟨hk, ?_⟩
    intro k v hkv
    obtain ⟨vs, hvs, hin⟩ := hv k v hkv
    rw [List.mem_map] at hvs
    obtain ⟨k2, _, heq⟩ := hvs
    cases heq
    exact hin

theorem Instances_uniform_keys_witness :
    ∃ S : Finset String, S ⊆ emptyListArgs.keys ∧
      ∀ b ∈ MatrixArgs.Instances emptyListArgs ["a", "b"],
        b.keys = S ∧ ∀ k v, b.lookup k = some v → v ∈ valuesOf emptyListArgs k :=
  Instances_uniform_keys emptyListArgs ["a", "b"] (by decide)

/-! ## A key whose placeholder is absent when it is visited -/

theorem rangeOver_append {β : Type} (m : GoMap β) (l₁ l₂ : List String) :
    rangeOver m (l₁ ++ l₂) = rangeOver m l₁ ++ rangeOver m l₂ := by
  simp [rangeOver]

theorem rangeOver_erase_of_not_mem {β : Type} (m : GoMap β) (k : String) (l : List String)
    (h : k ∉ l) : rangeOver (m.erase k) l = rangeOver m l := by
  induction l with
  | nil => rfl
  | cons x xs ih =>
    have hx : x ≠ k := fun e => h (by simp [e])
    have hxs : k ∉ xs := fun e => h (List.mem_cons_of_mem _ e)
    have ih2 := ih hxs
    unfold rangeOver at ih2 ⊢
    rw [List.filterMap_cons, List.filterMap_cons, Finmap.lookup_erase_ne hx, ih2]

theorem ParseQuery_body_absent (st : String × List String × Nat) (k v : String)
    (h : Contains st.1 (":" ++ k) = false) :
    InstanceArguments.ParseQuery.body st (k, v) = st := by
  simp [InstanceArguments.ParseQuery.body, h]

/-- A key whose placeholder is absent from the query as rewritten so far is skipped: the
loop goes on as if the key were not in the binding. -/
theorem ParseQuery_skip_key (b : InstanceArguments) (pre post : List String) (k q : String)
    (hpre : k ∉ pre) (hpost : k ∉ post)
    (habs : Contains (InstanceArguments.ParseQuery b pre q).1 (":" ++ k) = false) :
    InstanceArguments.ParseQuery b (pre ++ k :: post) q
      = InstanceArguments.ParseQuery (b.erase k) (pre ++ post) q := by
  have hmid : ∀ st : String × List String × Nat, Contains st.1 (":" ++ k) = false →
      (rangeOver b [k]).foldl InstanceArguments.ParseQuery.body st = st := by
    intro st hst
    unfold rangeOver
    cases hl : b.lookup k with
    | none => simp [hl]
    | some v => simp [hl, ParseQuery_body_absent st k v hst]
  have hsplit : pre ++ k :: post = pre ++ ([k] ++ post) := by simp
  unfold InstanceArguments.ParseQuery at habs ⊢
  rw [hsplit, rangeOver_append, rangeOver_append, rangeOver_append,
    rangeOver_erase_of_not_mem b k pre hpre, rangeOver_erase_of_not_mem b k post hpost,
    List.foldl_append, List.foldl_append, List.foldl_append, hmid _ habs]

/-- A key of the binding is without effect when `":" ++ k` does not occur in the query as
rewritten for the keys visited before `k`: `ParseQuery` then returns on `b` what it returns
on `b` with `k` removed, the remaining keys being visited in the same relative order (which
is a visiting order of the smaller binding). -/
theorem ParseQuery_skipped_key (b : InstanceArguments) (order : List String) (q k : String)
    (hord : IsRangeOrder b order) (hk : k ∈ b.keys)
    (habs : Contains
      (InstanceArguments.ParseQuery b (order.takeWhile (fun x => decide (x ≠ k))) q).1
      (":" ++ k) = false) :
    InstanceArguments.ParseQuery b order q
        = InstanceArguments.ParseQuery (b.erase k) (order.erase k) q ∧
      IsRangeOrder (b.erase k) (order.erase k) := by
  have hmem : k ∈ order := hord.mem.mpr (Finmap.mem_keys.mp hk)
  obtain ⟨pre, post, rfl⟩ := List.append_of_mem hmem
  have hnd := hord.1
  rw [List.nodup_append] at hnd
  obtain ⟨_, hnd2, hdis⟩ := hnd
  have hpre : k ∉ pre := fun h => hdis h (List.mem_cons_self _ _)
  have hpost : k ∉ post := (List.nodup_cons.mp hnd2).1
  have htake : (pre ++ k :: post).takeWhile (fun x => decide (x ≠ k)) = pre := by
    rw [List.takeWhile_append_of_pos (by
      intro a ha
      simp only [decide_eq_true_eq]
      exact fun e => hpre (e ▸ ha))]
    simp
  have herase : (pre ++ k :: post).erase k = pre ++ post := by
    rw [List.erase_append_right _ hpre, List.erase_cons_head]
  rw [htake] at habs
  rw [herase]
  refine ⟨ParseQuery_skip_key b pre post k q hpre hpost habs, ?_, ?_⟩
  · rw [← herase]
    exact hord.1.erase k
  · rw [Finmap.keys_erase, ← hord.2]
    ext x
    simp only [List.mem_toFinset, List.mem_append, Finset.mem_erase, List.mem_cons]
    constructor
    · rintro (h | h)
      · exact ⟨fun e => hpre (e ▸ h), Or.inl h⟩
      · exact ⟨fun e => hpost (e ▸ h), Or.inr (Or.inr h)⟩
    · rintro ⟨hne, h | h | h⟩
      · exact Or.inl h
      · exact absurd h hne
      · exact Or.inr h

/-- C12 as stated fails: on `{"a": "1", "$1k": "2"}` and the template `::ak`, visited `a`
then `$1k`, the string `:$1k` does not occur in the template, yet rewriting `:a` to `$1`
makes it occur, so the key `$1k` is replaced and its value appended; without that key the
result is a different query and a shorter argument list. -/
theorem ParseQuery_absent_key_created :
    IsRangeOrder dollarBinding ["a", "$1k"] ∧ "$1k" ∈ dollarBinding.keys ∧
    Contains "::ak" (":" ++ "$1k") = false ∧
    InstanceArguments.ParseQuery dollarBinding ["a", "$1k"] "::ak" = ("$2", ["1", "2"]) ∧
    InstanceArguments.ParseQuery (dollarBinding.erase "$1k") (["a", "$1k"].erase "$1k") "::ak"
      = (":$1k", ["1"]) := by
  decide

/-! ## Names without `$`: rewriting never makes their placeholder appear -/

/-- The search of `Contains` finds exactly the contiguous occurrences. -/
theorem containsChars_iff (sub s : List Char) : containsChars sub s = true ↔ sub <:+: s := by
  induction s with
  | nil => simp [containsChars]
  | cons c cs ih =>
    rw [containsChars, Bool.or_eq_true, ih, List.isPrefixOf_iff_prefix, List.infix_cons_iff]

theorem digitChar_ne_colon : ∀ d : Nat, d < 10 → Nat.digitChar d ≠ ':' := by
  decide

theorem toDigitsCore_ne_colon (fuel n : Nat) (ds : List Char) (h : ∀ c ∈ ds, c ≠ ':') :
    ∀ c ∈ Nat.toDigitsCore 10 fuel n ds, c ≠ ':' := by
  induction fuel generalizing n ds with
  | zero => simpa [Nat.toDigitsCore] using h
  | succ fuel ih =>
    have hd : ∀ c ∈ Nat.digitChar (n % 10) :: ds, c ≠ ':' := by
      intro c hc
      rcases List.mem_cons.mp hc with rfl | hc
      · exact digitChar_ne_colon _ (Nat.mod_lt _ (by decide))
      · exact h c hc
    unfold Nat.toDigitsCore
    simp only
    split
    · exact hd
    · exact ih _ _ hd

theorem sprintDollar_data (i : Nat) :
    ∃ ds : List Char, (sprintDollar i).data = '$' :: ds ∧ ':' ∉ ('$' :: ds) := by
  refine ⟨(Nat.repr i).data, rfl, ?_⟩
  intro h
  rcases List.mem_cons.mp h with h | h
  · exact absurd h (by decide)
  · exact toDigitsCore_ne_colon _ _ [] (by simp) ':' h rfl

theorem prefix_replaceChars (old ds : List Char) (s p : List Char) (hp : '$' ∉ p)
    (h : p <+: replaceChars old ('$' :: ds) 0 s) : p <+: s := by
  induction s generalizing p with
  | nil => simpa [replaceChars] using h
  | cons c cs ih =>
    cases p with
    | nil => exact List.nil_prefix
    | cons a p =>
      rw [replaceChars] at h
      split at h
      · rw [List.cons_append, List.cons_prefix_cons] at h
        exact absurd (by simp [h.1]) hp
      · rw [List.cons_prefix_cons] at h ⊢
        exact ⟨h.1, ih p (fun hm => hp (List.mem_cons_of_mem _ hm)) h.2⟩

theorem infix_of_infix_append (a : Char) (k new rest : List Char) (ha : a ∉ new)
    (h : a :: k <:+: new ++ rest) : a :: k <:+: rest := by
  induction new with
  | nil => rw [List.nil_append] at h; exact h
  | cons n ns ih =>
    rw [List.cons_append, List.infix_cons_iff] at h
    rcases h with h | h
    · rw [List.cons_prefix_cons] at h
      exact absurd (by simp [h.1]) ha
    · exact ih (fun hm => ha (List.mem_cons_of_mem _ hm)) h

/-- An occurrence of `:` followed by a `$`-free text in the rewritten query was already in
the query before the rewriting. -/
theorem infix_replaceChars (old ds k : List Char) (hk : '$' ∉ k) (hds : ':' ∉ ('$' :: ds))
    (skip : Nat) (s : List Char)
    (h : ':' :: k <:+: replaceChars old ('$' :: ds) skip s) : ':' :: k <:+: s := by
  have hp : '$' ∉ ':' :: k := by
    intro hm
    rcases List.mem_cons.mp hm with hm | hm
    · exact absurd hm (by decide)
    · exact hk hm
  induction s generalizing skip with
  | nil => simp [replaceChars] at h
  | cons c cs ih =>
    cases skip with
    | succ skip =>
      rw [replaceChars] at h
      exact List.infix_cons (ih skip h)
    | zero =>
      rw [replaceChars] at h
      split at h
      · exact List.infix_cons (ih _ (infix_of_infix_append ':' k _ _ hds h))
      · rw [List.infix_cons_iff] at h ⊢
        rcases h with h | h
        · left
          have h2 : ':' :: k <+: replaceChars old ('$' :: ds) 0 (c :: cs) := by
            rw [replaceChars, if_neg (by assumption)]
            exact h
          exact prefix_replaceChars old ds (c :: cs) _ hp h2
        · exact Or.inr (ih 0 h)

theorem Contains_false_body (k : String) (hk : '$' ∉ k.data)
    (st : String × List String × Nat) (e : String × String)
    (h : Contains st.1 (":" ++ k) = false) :
    Contains (InstanceArguments.ParseQuery.body st e).1 (":" ++ k) = false := by
  unfold InstanceArguments.ParseQuery.body
  split
  · obtain ⟨ds, hds1, hds2⟩ := sprintDollar_data st.2.2
    rw [Bool.eq_false_iff] at h ⊢
    intro hc
    apply h
    have hdk : (":" ++ k).data = ':' :: k.data := rfl
    have hde : ¬ (":" ++ e.1).data.isEmpty = true := by
      have : (":" ++ e.1).data = ':' :: e.1.data := rfl
      rw [this]; simp
    unfold Contains at hc ⊢
    rw [containsChars_iff] at hc ⊢
    unfold ReplaceAll at hc
    rw [if_neg hde, hds1, hdk] at hc
    rw [hdk]
    exact infix_replaceChars _ ds k.data hk hds2 0 _ hc
  · exact h

/-- A name without `$` whose placeholder does not occur in the template does not get one
through the rewriting of other names: after any part of the loop the placeholder is still
absent. -/
theorem Contains_false_ParseQuery (b : InstanceArguments) (visited : List String)
    (q k : String) (hk : '$' ∉ k.data) (hq : Contains q (":" ++ k) = false) :
    Contains (InstanceArguments.ParseQuery b visited q).1 (":" ++ k) = false := by
  have gen : ∀ (es : List (String × String)) (st : String × List String × Nat),
      Contains st.1 (":" ++ k) = false →
      Contains (es.foldl InstanceArguments.ParseQuery.body st).1 (":" ++ k) = false := by
    intro es
    induction es with
    | nil => intro st h; exact h
    | cons e es ih =>
      intro st h
      rw [List.foldl_cons]
      exact ih _ (Contains_false_body k hk st e h)
  exact gen _ _ hq

/-! ## C12: a key whose placeholder is absent from the template -/

/-- C12, amended: an argument present in the binding but absent from the template
contributes nothing, provided its name holds no `$`: for every binding `b`, template `q`,
key-visiting order and key `k` of `b` such that `k` contains no `$` and `":" ++ k` does not
occur in `q`, `ParseQuery` returns on `b` the same rewritten query and the same argument
list as on `b` with `k` removed, the remaining keys being visited in the same relative
order (which is a visiting order of the smaller binding). -/
theorem ParseQuery_absent_key (b : InstanceArguments) (order : List String) (q k : String)
    (hord : IsRangeOrder b order) (hk : k ∈ b.keys) (hdollar : '$' ∉ k.data)
    (hq : Contains q (":" ++ k) = false) :
    InstanceArguments.ParseQuery b order q
        = InstanceArguments.ParseQuery (b.erase k) (order.erase k) q ∧
      IsRangeOrder (b.erase k) (order.erase k) :=
  ParseQuery_skipped_key b order q k hord hk
    (Contains_false_ParseQuery b _ q k hdollar hq)

theorem ParseQuery_absent_key_witness :
    Contains "select f(:x, :x)" (":" ++ "y") = false ∧
    InstanceArguments.ParseQuery queryBinding ["x", "y"] "select f(:x, :x)"
      = InstanceArguments.ParseQuery (queryBinding.erase "y") (["x", "y"].erase "y")
          "select f(:x, :x)" ∧
    InstanceArguments.ParseQuery queryBinding ["x", "y"] "select f(:x, :x)"
      = ("select f($1, $1)", ["1"]) :=
  ⟨by decide,
    (ParseQuery_absent_key queryBinding ["x", "y"] "select f(:x, :x)" "y"
      (by decide) (by decide) (by decide) (by decide)).1,
    by decide⟩

/-! ## C15: cloning on references -/

theorem Store.read_old {s st : Store} (h : s <+: st) {r : Nat} (hr : r < s.length) :
    Store.read st r = Store.read s r := by
  obtain ⟨t, rfl⟩ := h
  unfold Store.read
  exact List.getD_append s t ∅ r hr

theorem Store.assign_keeps {s st : Store} (h : s <+: st) {r : Nat} (hr : s.length ≤ r)
    (k v : String) : s <+: Store.assign st r k v := by
  obtain ⟨t, rfl⟩ := h
  unfold Store.assign
  rw [List.set_append_right _ _ hr]
  exact List.prefix_append _ _

theorem Store.length_assign (st : Store) (r : Nat) (k v : String) :
    (Store.assign st r k v).length = st.length := by
  simp [Store.assign]

theorem Store.read_assign_same {st : Store} {r : Nat} (hr : r < st.length) (k v : String) :
    Store.read (Store.assign st r k v) r = Finmap.insert k v (Store.read st r) := by
  simp [Store.read, Store.assign, List.getElem?_set, hr]

theorem Store.read_assign_ne (st : Store) {r r2 : Nat} (h : r ≠ r2) (k v : String) :
    Store.read (Store.assign st r k v) r2 = Store.read st r2 := by
  simp [Store.read, Store.assign, List.getElem?_set_ne h]

theorem Store.keeps_of_read {s st : Store} (hlen : s.length ≤ st.length)
    (h : ∀ r, r < s.length → Store.read st r = Store.read s r) : s <+: st := by
  rw [List.prefix_iff_eq_take]
  apply List.ext_getElem
  · rw [List.length_take]; omega
  · intro n h1 h2
    have hr := h n h1
    unfold Store.read at hr
    rw [List.getD_eq_getElem _ _ (by omega), List.getD_eq_getElem _ _ h1] at hr
    rw [List.getElem_take]
    exact hr.symm

/-- The loop of `CloneRef` writes to the object of the clone only: the store keeps its
length, every other object is as before, and the clone holds for `x` the value of the
source when `x` was visited and the source has one. -/
theorem CloneRef_loop (b c : Nat) (hbc : b ≠ c) (ks : List String) (st : Store)
    (hc : c < st.length) :
    let out := ks.foldl (fun st key =>
      match (Store.read st b).lookup key with
      | some value => Store.assign st c key value
      | none => st) st
    out.length = st.length ∧ (∀ r, r ≠ c → Store.read out r = Store.read st r) ∧
      ∀ x, (Store.read out c).lookup x
        = ((if x ∈ ks then (Store.read st b).lookup x else none).orElse
            fun _ => (Store.read st c).lookup x) := by
  induction ks generalizing st with
  | nil => simp
  | cons k ks ih =>
    simp only [List.foldl_cons]
    cases hl : (Store.read st b).lookup k with
    | none =>
      obtain ⟨h1, h2, h3⟩ := ih st hc
      refine ⟨h1, h2, ?_⟩
      intro x
      rw [h3 x]
      by_cases hx : x = k
      · subst hx; simp [hl]
      · simp [hx]
    | some v =>
      have hc2 : c < (Store.assign st c k v).length := by rw [Store.length_assign]; exact hc
      have hb : Store.read (Store.assign st c k v) b = Store.read st b :=
        Store.read_assign_ne st (Ne.symm hbc) k v
      obtain ⟨h1, h2, h3⟩ := ih (Store.assign st c k v) hc2
      refine ⟨by rw [h1, Store.length_assign], ?_, ?_⟩
      · intro r hr
        rw [h2 r hr, Store.read_assign_ne st (Ne.symm hr)]
      · intro x
        rw [h3 x, hb, Store.read_assign_same hc]
        by_cases hx : x = k
        · subst hx
          by_cases hm : x ∈ ks
          · simp [hm, hl]
          · simp [hm, hl, Finmap.lookup_insert]
        · by_cases hm : x ∈ ks
          · simp [hm, hx]
          · simp [hm, hx, Finmap.lookup_insert_of_ne _ hx]

theorem CloneRef_fst (visit : InstanceArguments → List String) (s : Store) (b : Nat) :
    (CloneRef visit s b).1 = s.length := rfl

/-- `CloneRef` on an existing binding: the clone is a new object, all objects that existed
are unchanged, and the clone holds what the visited keys hold in the source. -/
theorem CloneRef_spec (visit : InstanceArguments → List String) (s : Store) (b : Nat)
    (hb : b < s.length) :
    (CloneRef visit s b).2.length = s.length + 1 ∧ s <+: (CloneRef visit s b).2 ∧
      ∀ x, (Store.read (CloneRef visit s b).2 s.length).lookup x
        = if x ∈ visit (Store.read s b) then (Store.read s b).lookup x else none := by
  have hpre : s <+: s ++ [(∅ : InstanceArguments)] := List.prefix_append _ _
  have hc : s.length < (s ++ [(∅ : InstanceArguments)]).length := by simp
  have hrb : Store.read (s ++ [(∅ : InstanceArguments)]) b = Store.read s b :=
    Store.read_old hpre hb
  have hrc : Store.read (s ++ [(∅ : InstanceArguments)]) s.length = ∅ := by
    simp [Store.read]
  obtain ⟨h1, h2, h3⟩ := CloneRef_loop b s.length (Nat.ne_of_lt hb)
    (visit (Store.read s b)) (s ++ [∅]) hc
  refine ⟨by simpa [CloneRef, Store.make] using h1, ?_, ?_⟩
  · apply Store.keeps_of_read
    · have : (CloneRef visit s b).2.length = s.length + 1 := by
        simpa [CloneRef, Store.make] using h1
      omega
    · intro r hr
      have hr2 := h2 r (Nat.ne_of_lt hr)
      rw [Store.read_old hpre hr] at hr2
      exact hr2
  · intro x
    have := h3 x
    rw [hrb, hrc, Finmap.lookup_empty] at this
    simp only [CloneRef, Store.make]
    rw [this]
    by_cases hm : x ∈ visit (Store.read s b)
    · simp [hm]
    · simp [hm]

theorem sortedKeys_isRangeOrder (m : InstanceArguments) : IsRangeOrder m (sortedKeys m) :=
  ⟨Finset.sort_nodup _ _, Finset.sort_toFinset _ _⟩

/-- With every key visited once, the clone holds exactly the pairs of the source. -/
theorem CloneRef_read (visit : InstanceArguments → List String)
    (hvisit : ∀ m, IsRangeOrder m (visit m)) (s : Store) (b : Nat) (hb : b < s.length) :
    Store.read (CloneRef visit s b).2 s.length = Store.read s b := by
  apply Finmap.ext_lookup
  intro x
  rw [(CloneRef_spec visit s b hb).2.2 x]
  by_cases hm : x ∈ visit (Store.read s b)
  · rw [if_pos hm]
  · rw [if_neg hm]
    symm
    rw [Finmap.lookup_eq_none]
    exact fun h => hm ((hvisit _).mem.mpr h)

/-- One pass of the inner loop of `ExplodeRef`: a new object is added that holds the source
with `key` set, and nothing that existed is changed. -/
theorem ExplodeRef_step (visit : InstanceArguments → List String) (st : Store) (mia : Nat)
    (hm : mia < st.length) (key value : String) :
    st <+: Store.assign (CloneRef visit st mia).2 (CloneRef visit st mia).1 key value ∧
      (Store.assign (CloneRef visit st mia).2 (CloneRef visit st mia).1 key value).length
        = st.length + 1 ∧
      Store.read (Store.assign (CloneRef visit st mia).2 (CloneRef visit st mia).1 key value)
          st.length
        = Finmap.insert key value (Store.read (CloneRef visit st mia).2 st.length) := by
  obtain ⟨hlen, hpre, _⟩ := CloneRef_spec visit st mia hm
  rw [CloneRef_fst]
  refine ⟨Store.assign_keeps hpre (Nat.le_refl _) key value, ?_, ?_⟩
  · rw [Store.length_assign, hlen]
  · exact Store.read_assign_same (by omega) key value

/-- The objects that existed before `ExplodeRef` are unchanged by it, whatever the order
in which the clones visit their keys. -/
theorem ExplodeRef_frame (visit : InstanceArguments → List String) (mavs : MatrixArgValues)
    (key : String) (collected : List Nat) (s : Store)
    (hcoll : ∀ r ∈ collected, r < s.length) :
    s <+: (ExplodeRef visit mavs key collected s).2 := by
  have inner : ∀ (value : String) (coll : List Nat), (∀ r ∈ coll, r < s.length) →
      ∀ acc : List Nat × Store, s <+: acc.2 →
      s <+: (coll.foldl (fun acc mia =>
        let cloned := CloneRef visit acc.2 mia
        (acc.1 ++ [cloned.1], Store.assign cloned.2 cloned.1 key value)) acc).2 := by
    intro value coll
    induction coll with
    | nil => intro _ acc h; exact h
    | cons mia coll ih =>
      intro hc acc h
      rw [List.foldl_cons]
      apply ih (fun r hr => hc r (List.mem_cons_of_mem _ hr))
      have hm : mia < acc.2.length :=
        Nat.lt_of_lt_of_le (hc mia (List.mem_cons_self _ _)) h.length_le
      exact h.trans (ExplodeRef_step visit acc.2 mia hm key value).1
  have outer : ∀ (vs : List String) (acc : List Nat × Store), s <+: acc.2 →
      s <+: (vs.foldl (fun acc value =>
        collected.foldl (fun acc mia =>
          let cloned := CloneRef visit acc.2 mia
          (acc.1 ++ [cloned.1], Store.assign cloned.2 cloned.1 key value)) acc) acc).2 := by
    intro vs
    induction vs with
    | nil => intro acc h; exact h
    | cons v vs ih =>
      intro acc h
      rw [List.foldl_cons]
      exact ih _ (inner v collected hcoll acc h)
  exact outer mavs ([], s) (List.prefix_refl s)

/-- One pass of the inner loop of `ExplodeRef` keeps the correspondence between the
references collected so far and the bindings they name. -/
theorem ExplodeRef_inv_step (visit : InstanceArguments → List String)
    (hvisit : ∀ m, IsRangeOrder m (visit m)) (s : Store) (key value : String) (mia : Nat)
    (hmia : mia < s.length) (acc : List Nat × Store) (pure : List InstanceArguments)
    (hpre : s <+: acc.2) (hrefs : ∀ r ∈ acc.1, r < acc.2.length)
    (hmap : acc.1.map (Store.read acc.2) = pure) :
    let next : List Nat × Store :=
      (acc.1 ++ [(CloneRef visit acc.2 mia).1],
        Store.assign (CloneRef visit acc.2 mia).2 (CloneRef visit acc.2 mia).1 key value)
    s <+: next.2 ∧ (∀ r ∈ next.1, r < next.2.length) ∧
      next.1.map (Store.read next.2)
        = pure ++ [Finmap.insert key value (Store.read s mia)] := by
  have hm : mia < acc.2.length := Nat.lt_of_lt_of_le hmia hpre.length_le
  obtain ⟨h1, h2, h3⟩ := ExplodeRef_step visit acc.2 mia hm key value
  rw [CloneRef_read visit hvisit acc.2 mia hm, Store.read_old hpre hmia] at h3
  simp only [CloneRef_fst] at h1 h2 h3 ⊢
  refine ⟨hpre.trans h1, ?_, ?_⟩
  · intro r hr
    simp only [List.mem_append, List.mem_singleton] at hr
    rcases hr with hr | hr
    · have := hrefs r hr
      omega
    · omega
  · simp only [List.map_append, List.map_cons, List.map_nil]
    rw [h3, ← hmap]
    congr 1
    apply List.map_congr_left
    intro r hr
    exact Store.read_old h1 (hrefs r hr)

/-- `ExplodeRef` computes on references what `Explode` computes on bindings: the objects
named by the references it returns are the bindings `Explode` returns for the bindings
named by `collected`. -/
theorem ExplodeRef_refines (visit : InstanceArguments → List String)
    (hvisit : ∀ m, IsRangeOrder m (visit m)) (mavs : MatrixArgValues) (key : String)
    (collected : List Nat) (s : Store) (hcoll : ∀ r ∈ collected, r < s.length) :
    (ExplodeRef visit mavs key collected s).1.map
        (Store.read (ExplodeRef visit mavs key collected s).2)
      = MatrixArgValues.Explode mavs key (collected.map (Store.read s)) := by
  have inner : ∀ (value : String) (coll : List Nat), (∀ r ∈ coll, r < s.length) →
      ∀ (acc : List Nat × Store) (pure : List InstanceArguments),
      s <+: acc.2 → (∀ r ∈ acc.1, r < acc.2.length) → acc.1.map (Store.read acc.2) = pure →
      let out := coll.foldl (fun acc mia =>
        let cloned := CloneRef visit acc.2 mia
        (acc.1 ++ [cloned.1], Store.assign cloned.2 cloned.1 key value)) acc
      s <+: out.2 ∧ (∀ r ∈ out.1, r < out.2.length) ∧
        out.1.map (Store.read out.2)
          = pure ++ coll.map (fun r => Finmap.insert key value (Store.read s r)) := by
    intro value coll
    induction coll with
    | nil => intro _ acc pure h1 h2 h3; simpa using ⟨h1, h2, h3⟩
    | cons mia coll ih =>
      intro hc acc pure h1 h2 h3
      obtain ⟨g1, g2, g3⟩ := ExplodeRef_inv_step visit hvisit s key value mia
        (hc mia (List.mem_cons_self _ _)) acc pure h1 h2 h3
      have := ih (fun r hr => hc r (List.mem_cons_of_mem _ hr)) _ _ g1 g2 g3
      simpa [List.foldl_cons, List.append_assoc] using this
  have outer : ∀ (vs : List String) (acc : List Nat × Store) (pure : List InstanceArguments),
      s <+: acc.2 → (∀ r ∈ acc.1, r < acc.2.length) → acc.1.map (Store.read acc.2) = pure →
      let out := vs.foldl (fun acc value =>
        collected.foldl (fun acc mia =>
          let cloned := CloneRef visit acc.2 mia
          (acc.1 ++ [cloned.1], Store.assign cloned.2 cloned.1 key value)) acc) acc
      out.1.map (Store.read out.2)
        = pure ++ vs.flatMap (fun value =>
            collected.map (fun r => Finmap.insert key value (Store.read s r))) := by
    intro vs
    induction vs with
    | nil => intro acc pure _ _ h3; simpa using h3
    | cons v vs ih =>
      intro acc pure h1 h2 h3
      obtain ⟨g1, g2, g3⟩ := inner v collected hcoll acc pure h1 h2 h3
      have := ih _ _ g1 g2 g3
      simpa [List.foldl_cons, List.append_assoc] using this
  have h := outer mavs ([], s) [] (List.prefix_refl s) (by simp) rfl
  rw [Explode_eq]
  simpa [ExplodeRef, List.map_map, Function.comp_def] using h

/-- C15: cloning a binding and then assigning on the clone never changes the original: for
every store of map objects, every existing binding `b`, key `k` and value `v`, after
`c := b.Clone()` and `c[k] = v` the clone is another object than `b`, the object of `b`
holds exactly what it held before, and the clone holds the pairs of `b` with `k` set to
`v`; consequently `Explode` leaves every binding of `collected` unchanged, while the
bindings it returns are those of the value-level `Explode`. -/
theorem Clone_assign_frame (visit : InstanceArguments → List String)
    (hvisit : ∀ m, IsRangeOrder m (visit m)) (s : Store) (b : Nat) (hb : b < s.length)
    (k v : String) (mavs : MatrixArgValues) (key : String) (collected : List Nat)
    (hcoll : ∀ r ∈ collected, r < s.length) :
    (CloneRef visit s b).1 ≠ b ∧
    Store.read (Store.assign (CloneRef visit s b).2 (CloneRef visit s b).1 k v) b
      = Store.read s b ∧
    Store.read (Store.assign (CloneRef visit s b).2 (CloneRef visit s b).1 k v)
        (CloneRef visit s b).1
      = Finmap.insert k v (Store.read s b) ∧
    (∀ r ∈ collected,
      Store.read (ExplodeRef visit mavs key collected s).2 r = Store.read s r) ∧
    (ExplodeRef visit mavs key collected s).1.map
        (Store.read (ExplodeRef visit mavs key collected s).2)
      = MatrixArgValues.Explode mavs key (collected.map (Store.read s)) := by
  obtain ⟨h1, _, h3⟩ := ExplodeRef_step visit s b hb k v
  refine ⟨?_, Store.read_old h1 hb, ?_, ?_,
    ExplodeRef_refines visit hvisit mavs key collected s hcoll⟩
  · rw [CloneRef_fst]
    omega
  · simp only [CloneRef_fst] at h3 ⊢
    rw [h3, CloneRef_read visit hvisit s b hb]
  · intro r hr
    exact Store.read_old (ExplodeRef_frame visit mavs key collected s hcoll)
      (hcoll r hr)

theorem Clone_assign_frame_witness :
    Store.read (Store.assign (CloneRef sortedKeys [xyBinding "1" "3"] 0).2
        (CloneRef sortedKeys [xyBinding "1" "3"] 0).1 "x" "9") 0
      = Store.read [xyBinding "1" "3"] 0 :=
  (Clone_assign_frame sortedKeys sortedKeys_isRangeOrder [xyBinding "1" "3"] 0 (by decide)
    "x" "9" ["4"] "y" [0] (by decide)).2.1

end PgQuartz.Jobs
